import Mathlib

/-!
# Verification of the Print-Automation mail-merge core

Shallow embedding of the template placeholder resolution and batch
document/email generation pipeline of the Print-Automation repository:

* `src/utils/document_processor.py` — placeholder discovery and substitution
  over Word-style documents (paragraphs made of formatting runs, tables with
  nested tables, section headers/footers);
* `src/utils/data_handler.py` — row materialisation with the numeric
  "`_Words`" augmentation;
* `src/utils/email_handler.py` — batch SMTP dispatch with per-job failure
  isolation;
* `src/app.py` — auto-mapping of placeholders to columns and output filename
  derivation.

Strings are modelled as Lean `String`/`List Char`; Python's `str.lower` is
modelled on the ASCII range, `re` scanning is modelled by explicit
left-to-right scanners.  External libraries (`num2words`, float `repr`) are
black boxes, passed in as function parameters.  Python floats are modelled as
rationals plus an explicit NaN flag; byte-level `.docx` (de)serialisation is
abstracted away, a parsed document standing for its byte blob.
-/

namespace PrintAutomation

/-! ## Basic character/string helpers (ASCII models of Python primitives) -/

/-- ASCII model of Python `str.lower` on a single character. -/
def lowerChar (c : Char) : Char :=
  match c with
  | 'A' => 'a' | 'B' => 'b' | 'C' => 'c' | 'D' => 'd' | 'E' => 'e'
  | 'F' => 'f' | 'G' => 'g' | 'H' => 'h' | 'I' => 'i' | 'J' => 'j'
  | 'K' => 'k' | 'L' => 'l' | 'M' => 'm' | 'N' => 'n' | 'O' => 'o'
  | 'P' => 'p' | 'Q' => 'q' | 'R' => 'r' | 'S' => 's' | 'T' => 't'
  | 'U' => 'u' | 'V' => 'v' | 'W' => 'w' | 'X' => 'x' | 'Y' => 'y'
  | 'Z' => 'z'
  | c => c

/-- Python `str.lower`. -/
def lowerStr (s : String) : String := ⟨s.data.map lowerChar⟩

/-- The whitespace class of Python's `\s` / `str.strip` (ASCII range). -/
def isWsChar (c : Char) : Bool :=
  c = ' ' || c = '\t' || c = '\n' || c = '\r' || c = '\x0b' || c = '\x0c'

/-- Substring test on character lists: Python `needle in hay`. -/
def containsSub (needle : List Char) : List Char → Bool
  | [] => needle.isEmpty
  | c :: t => needle.isPrefixOf (c :: t) || containsSub needle t

/-- Python `needle in hay` for strings. -/
def strContains (hay needle : String) : Bool := containsSub needle.data hay.data

/-- Python `s.strip()` (ASCII whitespace). -/
def pyStrip (s : String) : String :=
  ⟨((s.data.dropWhile isWsChar).reverse.dropWhile isWsChar).reverse⟩

/-- Python `s.replace(",", "")`. -/
def removeCommas (s : String) : String := ⟨s.data.filter (fun c => !(c = ','))⟩

/-- Python `s.replace(".", "", 1)`: drop the first full stop only. -/
def removeFirstDot : List Char → List Char
  | [] => []
  | c :: cs => if c = '.' then cs else c :: removeFirstDot cs

/-- Python `"".join`-style concatenation of a list of strings. -/
def concatRuns : List String → String
  | [] => ""
  | s :: rest => s ++ concatRuns rest

/-! ## Python dict model

Rows and replacement maps are Python dicts with string keys; insertion
order is significant, keys are unique.  We model them as association
lists: lookup takes the first hit, assignment replaces in place or
appends. -/

/-- A Python `Dict[str, str]`. -/
abbrev StrRow := List (String × String)

/-- Python `k in d`. -/
def rowHas (d : StrRow) (k : String) : Bool := d.any (fun kv => kv.1 == k)

/-- Python `d.get(k)` as an `Option`. -/
def rowFind (d : StrRow) (k : String) : Option String :=
  (d.find? (fun kv => kv.1 == k)).map (fun kv => kv.2)

/-- Python `d[k]`, defaulting to `""` (all call sites guard with `rowHas`). -/
def rowGet (d : StrRow) (k : String) : String := (rowFind d k).getD ""

/-- Python `d[k] = v`: replace in place if the key exists, else append. -/
def pySet (d : StrRow) (k v : String) : StrRow :=
  if rowHas d k then d.map (fun kv => if kv.1 == k then (k, v) else kv)
  else d ++ [(k, v)]

/-! ## Column Mapper — `src/app.py`, `render_column_mapping` (lines 519-539)

```python
for placeholder in placeholders:
    if placeholder in columns:
        auto_mapping[placeholder] = placeholder
    else:
        for col in columns:
            if col.lower() == placeholder.lower():
                auto_mapping[placeholder] = col
                break
            elif (placeholder.lower() in col.lower()
                  or col.lower() in placeholder.lower()):
                auto_mapping[placeholder] = col
                break
```
-/

/-- The inner `for col in columns` loop of `render_column_mapping`: the first
column that matches case-insensitively exactly, or — checked for the *same*
column before moving on — as a case-insensitive substring in either
direction. -/
def app_inner_match (p : String) : List String → Option String
  | [] => none
  | c :: rest =>
    if lowerStr c == lowerStr p then some c
    else if containsSub (lowerStr p).data (lowerStr c).data
            || containsSub (lowerStr c).data (lowerStr p).data then some c
    else app_inner_match p rest

/-- `src/app.py` auto-mapping (`render_column_mapping`): dict built in
placeholder order; a placeholder with no match is omitted. -/
def auto_map_app : List String → List String → List (String × String)
  | [], _ => []
  | p :: ps, cols =>
    (if cols.contains p then [(p, p)]
     else
       match app_inner_match p cols with
       | some c => [(p, c)]
       | none => []) ++ auto_map_app ps cols

/-- Follows the spec's words (§4.4) for comparison with `auto_map_app`: three
*separate* tiers — (a) exact match over all columns, (b) case-insensitive
exact match over all columns, (c) case-insensitive substring match in either
direction — taking the first column of the first tier that succeeds at all. -/
def spec_tier_match (p : String) (cols : List String) : Option String :=
  match cols.find? (fun c => c == p) with
  | some c => some c
  | none =>
    match cols.find? (fun c => lowerStr c == lowerStr p) with
    | some c => some c
    | none =>
      cols.find? (fun c =>
        containsSub (lowerStr p).data (lowerStr c).data
          || containsSub (lowerStr c).data (lowerStr p).data)

/-- Follows the spec's words: tiered auto-mapping over all placeholders. -/
def auto_map_tiered (ps cols : List String) : List (String × String) :=
  ps.filterMap (fun p => (spec_tier_match p cols).map (fun c => (p, c)))

/-- Single-pass match predicate actually used by `app_inner_match`:
case-insensitive exact *or* substring, decided per column. -/
def app_fused_match (p c : String) : Bool :=
  lowerStr c == lowerStr p
    || containsSub (lowerStr p).data (lowerStr c).data
    || containsSub (lowerStr c).data (lowerStr p).data

/-! ## Filename Deriver — `src/app.py`, `render_generate_section`
(lines 805-838) and `src/utils/document_processor.py`,
`generate_documents` (lines 235-242) -/

/-- One entry of `st.session_state.filename_pattern`. -/
inductive PatternItem where
  | column (value : String)
  | separator (value : String)
deriving DecidableEq, Repr

/-- The character class of `re.sub(r'[<>:"/\\|?*]', "_", filename)`. -/
def sanitizeChar (c : Char) : Char :=
  if ['<', '>', ':', '"', '/', '\\', '|', '?', '*'].contains c then '_' else c

/-- The filename sanitizer of `src/app.py` / `generate_documents`. -/
def sanitize_filename (s : String) : String := ⟨s.data.map sanitizeChar⟩

/-- Decimal digit character (`n < 10` at all call sites). -/
def digitChar (n : Nat) : Char := Char.ofNat (48 + n)

/-- Decimal digits of a natural number, most significant first; fuel-driven
so that the kernel can evaluate it (fuel `n+1` always suffices). -/
def natDigitsF : Nat → Nat → List Char
  | 0, _ => []
  | f + 1, n => if n < 10 then [digitChar n] else natDigitsF f (n / 10) ++ [digitChar (n % 10)]

/-- Decimal digits of `n` (the fuel `n + 1` always suffices). -/
def natDigits (n : Nat) : List Char := natDigitsF (n + 1) n

/-- Python `f"{n:04d}"` for `n ≥ 0`. -/
def pad4 (n : Nat) : String :=
  ⟨List.replicate (4 - (natDigits n).length) '0' ++ natDigits n⟩

/-- The auto filename `f"document_{idx + 1:04d}.docx"` (`idx` 0-based). -/
def autoName (idx : Nat) : String := "document_" ++ pad4 (idx + 1) ++ ".docx"

/-- The fragment list a pattern builds:
`column` items resolve through the row (silently skipped when absent),
`separator` items are literal. -/
def pattern_parts : List PatternItem → StrRow → List String
  | [], _ => []
  | .column v :: rest, row =>
    (if rowHas row v then [rowGet row v] else []) ++ pattern_parts rest row
  | .separator v :: rest, row => v :: pattern_parts rest row

/-- `src/app.py` filename derivation for one row (`idx` 0-based).  `mode` is
`st.session_state.filename_mode`; an empty pattern list / empty column name
model Python falsiness of the corresponding session entries. -/
def derive_filename (mode : String) (pat : List PatternItem) (fcol : String)
    (row : StrRow) (idx : Nat) : String :=
  if mode == "pattern" && !pat.isEmpty then
    sanitize_filename (concatRuns (pattern_parts pat row) ++ ".docx")
  else if mode == "single" && !(fcol == "") then
    if rowHas row fcol then sanitize_filename (rowGet row fcol ++ ".docx")
    else autoName idx
  else autoName idx

/-- Follows the claim's words: the strategy's *raw* concatenation, before the
extension is appended and the sanitizer applied. -/
def raw_filename (mode : String) (pat : List PatternItem) (fcol : String)
    (row : StrRow) (idx : Nat) : String :=
  if mode == "pattern" && !pat.isEmpty then concatRuns (pattern_parts pat row)
  else if mode == "single" && !(fcol == "") then
    if rowHas row fcol then rowGet row fcol
    else "document_" ++ pad4 (idx + 1)
  else "document_" ++ pad4 (idx + 1)

/-! ## Placeholder Engine — `src/utils/document_processor.py`

`PLACEHOLDER_PATTERN = re.compile(r"\{([^}]+)\}")` and, per replacement
entry, `re.sub(r"\{\s*" + re.escape(key) + r"\s*\}", value, text,
flags=re.IGNORECASE)`.  Both regexes are modelled by explicit left-to-right
scanners over `List Char`; `re.sub` replaces non-overlapping matches
scanning left to right and does not rescan replacement text, exactly as the
scanners below do.  (Keys are always `strip()`ped placeholder names, for
which greedy whitespace consumption coincides with the regex semantics.) -/

/-- Drop the leading `\s*`-matched whitespace. -/
def dropWs : List Char → List Char
  | [] => []
  | c :: cs => if isWsChar c then dropWs cs else c :: cs

/-- Match `re.escape(key)` case-insensitively (`re.IGNORECASE`) at the head
of the input, returning the rest on success. -/
def matchKeyCI : List Char → List Char → Option (List Char)
  | [], s => some s
  | _ :: _, [] => none
  | k :: ks, c :: cs => if lowerChar c = lowerChar k then matchKeyCI ks cs else none

/-- Try to match `\{\s*key\s*\}` (case-insensitive) at the head of the
input; on success return the input minus the matched span. -/
def tryTok (key : List Char) (s : List Char) : Option (List Char) :=
  match s with
  | [] => none
  | c :: rest =>
    if c = '{' then
      match matchKeyCI key (dropWs rest) with
      | none => none
      | some s2 =>
        match dropWs s2 with
        | [] => none
        | d :: s3 => if d = '}' then some s3 else none
    else none

/-- One `re.sub(r"\{\s*key\s*\}", val, ·, flags=re.IGNORECASE)` pass,
fuel-driven so the kernel can evaluate it (fuel `s.length` suffices:
every match consumes at least the opening brace). -/
def replTokF (key val : List Char) : Nat → List Char → List Char
  | 0, s => s
  | _ + 1, [] => []
  | fuel + 1, c :: cs =>
    match tryTok key (c :: cs) with
    | some rest => val ++ replTokF key val fuel rest
    | none => c :: replTokF key val fuel cs

/-- `re.sub` for one replacement entry. -/
def replTok (key val : List Char) (s : List Char) : List Char :=
  replTokF key val s.length s

/-- The `for placeholder, value in replacements.items()` loop of
`_replace_text_in_paragraph`: apply each entry's `re.sub` in order. -/
def applyReplacements (repl : List (String × String)) (s : String) : String :=
  repl.foldl (fun acc kv => ⟨replTok kv.1.data kv.2.data acc.data⟩) s

/-- `PLACEHOLDER_PATTERN.search(text)`: is there a `{`, then one or more
non-`}` characters, then `}` anywhere in the text? -/
def hasPlaceholderTok : List Char → Bool
  | [] => false
  | c :: rest =>
    (c = '{' && (match rest with
      | [] => false
      | d :: ds => !(d = '}') && ds.contains '}'))
    || hasPlaceholderTok rest

/-- A paragraph is its list of run texts; `paragraph.text` is their
concatenation. -/
abbrev Para := List String

/-- `_replace_text_in_paragraph` (lines 104-142): substitute on the full
concatenated text; if nothing could match, or the text did not change, the
runs are left untouched; otherwise all runs are cleared and the whole new
text is written into the first run (or, with no runs, `paragraph.text` is
assigned, which materialises a single run). -/
def replace_text_in_paragraph (repl : List (String × String)) (runs : Para) : Para :=
  let full := concatRuns runs
  if !hasPlaceholderTok full.data then runs
  else
    let newText := applyReplacements repl full
    if newText == full then runs
    else
      match runs with
      | [] => [newText]
      | _ :: rest => newText :: rest.map (fun _ => "")

/-- `PLACEHOLDER_PATTERN.findall(text)` with each captured name
`strip()`ped, in match order: the discovery scanner of
`_extract_placeholders_from_text`.  At a `{`, the greedy `[^}]+` capture is
the run of non-`}` characters, which must be non-empty and closed by `}`. -/
def findTokensF : Nat → List Char → List String
  | 0, _ => []
  | _ + 1, [] => []
  | fuel + 1, c :: rest =>
    if c = '{' then
      let pre := rest.takeWhile (fun d => !(d = '}'))
      match rest.drop pre.length with
      | '}' :: after =>
        if pre.isEmpty then findTokensF fuel rest
        else pyStrip ⟨pre⟩ :: findTokensF fuel after
      | _ => findTokensF fuel rest
    else findTokensF fuel rest

/-- `findTokensF` with always-sufficient fuel. -/
def findTokens (s : List Char) : List String := findTokensF s.length s

/-! ### Document structure

python-docx documents: body paragraphs, body tables (rows of cells; a cell
holds paragraphs and nested tables), and per-section header/footer
paragraphs and tables.  Formatting attributes of runs are irrelevant to
every claim and are not modelled; a run is its text. -/

mutual
inductive Tbl where
  | mk (rows : List TblRow) : Tbl
inductive TblRow where
  | mk (cells : List Cell) : TblRow
inductive Cell where
  | mk (paras : List Para) (tables : List Tbl) : Cell
end

/-- A document section's header and footer content. -/
structure Sectn where
  headerParas : List Para
  headerTables : List Tbl
  footerParas : List Para
  footerTables : List Tbl

/-- A parsed document.  The byte blob ↔ parsed document round trip of
`Document(BytesIO(bytes))`/`doc.save` is abstracted away: a `DocModel`
stands for its serialised bytes. -/
structure DocModel where
  paragraphs : List Para
  tables : List Tbl
  sections : List Sectn

mutual
/-- `_replace_in_table`: recurse through rows, cells and nested tables. -/
def replTbl (repl : List (String × String)) : Tbl → Tbl
  | .mk rows => .mk (replTblRows repl rows)
def replTblRows (repl : List (String × String)) : List TblRow → List TblRow
  | [] => []
  | r :: rest => replTblRow repl r :: replTblRows repl rest
def replTblRow (repl : List (String × String)) : TblRow → TblRow
  | .mk cells => .mk (replCells repl cells)
def replCells (repl : List (String × String)) : List Cell → List Cell
  | [] => []
  | c :: rest => replCell repl c :: replCells repl rest
def replCell (repl : List (String × String)) : Cell → Cell
  | .mk ps ts => .mk (ps.map (replace_text_in_paragraph repl)) (replTbls repl ts)
def replTbls (repl : List (String × String)) : List Tbl → List Tbl
  | [] => []
  | t :: rest => replTbl repl t :: replTbls repl rest
end

mutual
/-- All paragraphs of a table, in traversal order. -/
def tblParas : Tbl → List Para
  | .mk rows => tblRowsParas rows
def tblRowsParas : List TblRow → List Para
  | [] => []
  | r :: rest => tblRowParas r ++ tblRowsParas rest
def tblRowParas : TblRow → List Para
  | .mk cells => tblCellsParas cells
def tblCellsParas : List Cell → List Para
  | [] => []
  | c :: rest => tblCellParas c ++ tblCellsParas rest
def tblCellParas : Cell → List Para
  | .mk ps ts => ps ++ tblsParas ts
def tblsParas : List Tbl → List Para
  | [] => []
  | t :: rest => tblParas t ++ tblsParas rest
end

/-- All paragraphs of the sections' headers and footers. -/
def sectionsParas : List Sectn → List Para
  | [] => []
  | s :: rest =>
    s.headerParas ++ tblsParas s.headerTables
      ++ s.footerParas ++ tblsParas s.footerTables ++ sectionsParas rest

/-- Every paragraph of the document: body, tables (nested included),
headers and footers — the set of text-bearing nodes both discovery and
substitution visit. -/
def docParas (d : DocModel) : List Para :=
  d.paragraphs ++ tblsParas d.tables ++ sectionsParas d.sections

/-- The texts of all paragraphs of a document. -/
def docTexts (d : DocModel) : List String := (docParas d).map concatRuns

/-- `_extract_placeholders` / `get_placeholders`: the distinct placeholder
names of the whole document.  (Python collects them into a `set`; we keep
the first-discovery order, which the claims never depend on.) -/
def extract_placeholders (d : DocModel) : List String :=
  ((docTexts d).flatMap (fun t => findTokens t.data)).eraseDups

/-- The `DocumentProcessor` object state: the immutable template bytes and
the placeholder set computed once in `__init__`. -/
structure DocProc where
  template_bytes : DocModel
  placeholders : List String

/-- `DocumentProcessor.__init__`. -/
def initProcessor (template : DocModel) : DocProc :=
  ⟨template, extract_placeholders template⟩

/-- The replacement-map construction of `generate_document` (lines
174-190): skip placeholders listed in `preserved` (case-sensitive `in`
check); value from `data` by exact key, else by case-insensitive key, else
the empty string. -/
def buildReplacements : List String → List String → StrRow → List (String × String)
  | [], _, _ => []
  | p :: ps, preserved, data =>
    if preserved.contains p then buildReplacements ps preserved data
    else
      let v :=
        if rowHas data p then rowGet data p
        else
          match data.find? (fun kv => lowerStr kv.1 == lowerStr p) with
          | some kv => kv.2
          | none => ""
      (p, v) :: buildReplacements ps preserved data

/-- `generate_document` (lines 154-218): parse a fresh copy of the template
bytes, build the replacement map (default reserved list `["Signature"]`),
substitute in body paragraphs, all tables, and every section's header and
footer, and serialise the result. -/
def generate_document (proc : DocProc) (data : StrRow)
    (preserved_placeholders : Option (List String)) : DocModel :=
  let preserved := preserved_placeholders.getD ["Signature"]
  let repl := buildReplacements proc.placeholders preserved data
  let doc := proc.template_bytes
  { paragraphs := doc.paragraphs.map (replace_text_in_paragraph repl)
    tables := replTbls repl doc.tables
    sections := doc.sections.map (fun s =>
      { headerParas := s.headerParas.map (replace_text_in_paragraph repl)
        headerTables := replTbls repl s.headerTables
        footerParas := s.footerParas.map (replace_text_in_paragraph repl)
        footerTables := replTbls repl s.footerTables }) }

/-- `generate_document` as a state transformer on the processor object: the
method reads `self.template_bytes` and `self.placeholders` and assigns no
field of `self`, so the faithful translation returns the object unchanged
next to the freshly serialised output. -/
def generate_document_stateful (proc : DocProc) (data : StrRow)
    (preserved_placeholders : Option (List String)) : DocProc × DocModel :=
  (proc, generate_document proc data preserved_placeholders)

/-! ## Tabular Data Loader / Numeric-to-Words — `src/utils/data_handler.py`

A cell value is a Python scalar: `int`, `float` (rational value plus an
explicit NaN flag, covering pandas' missing-value sentinel), `str`, or
`None`.  Two external functions are abstracted as parameters:
`fr : Rat → String` is Python's `str(float)` on non-integral finite floats,
and `n2w : Rat → String` is `num2words(x, lang="en_IN")`. -/

/-- A scalar cell value. -/
inductive PVal where
  | pInt (n : Int)
  | pFloat (nan : Bool) (q : Rat)
  | pStr (s : String)
  | pNone
deriving DecidableEq, Repr

/-- A source row, `df.to_dict("records")[i]`: ordered, unique keys. -/
abbrev PRow := List (String × PVal)

/-- Python `col in row` on a source row. -/
def prowHas (r : PRow) (k : String) : Bool := r.any (fun kv => kv.1 == k)

/-- Python `row[col]` on a source row (call sites guard with `prowHas`). -/
def prowGet (r : PRow) (k : String) : PVal :=
  ((r.find? (fun kv => kv.1 == k)).map (fun kv => kv.2)).getD .pNone

/-- `pd.isna(value)`. -/
def pdIsNa : PVal → Bool
  | .pNone => true
  | .pFloat nan _ => nan
  | _ => false

/-- Python `str.isdigit` (ASCII model): non-empty and all decimal digits. -/
def pyIsDigit (l : List Char) : Bool := !l.isEmpty && l.all Char.isDigit

/-- The numeric-looking test of `get_data_as_dicts`:
`isinstance(value, (int, float)) or (isinstance(value, str) and
value.replace(',', '').replace('.', '', 1).isdigit())`. -/
def code_numeric_test : PVal → Bool
  | .pInt _ => true
  | .pFloat _ _ => true
  | .pStr s => pyIsDigit (removeFirstDot (removeCommas s).data)
  | .pNone => false

/-- Natural number denoted by a digit run. -/
def digitsToNat (l : List Char) : Nat :=
  l.foldl (fun acc c => 10 * acc + (c.toNat - 48)) 0

/-- Model of Python `float(s)` on a decimal literal: optional surrounding
whitespace, optional sign, integer and/or fractional digits around an
optional point, optional exponent.  (`inf`/`nan` spellings are omitted:
no claim depends on them.)  Returns the exact rational value. -/
def pyFloatParse (s : String) : Option Rat :=
  let l := (s.data.dropWhile isWsChar).reverse.dropWhile isWsChar |>.reverse
  let (sign, l) : Rat × List Char :=
    match l with
    | '+' :: t => (1, t)
    | '-' :: t => (-1, t)
    | t => (1, t)
  let ip := l.takeWhile Char.isDigit
  let l2 := l.drop ip.length
  let (fp, l3) : List Char × List Char :=
    match l2 with
    | '.' :: t => (t.takeWhile Char.isDigit, t.drop (t.takeWhile Char.isDigit).length)
    | t => ([], t)
  if ip.isEmpty && fp.isEmpty then none
  else
    let mant : Rat := (digitsToNat ip : Rat) + (digitsToNat fp : Rat) / ((10 : Rat) ^ fp.length)
    match l3 with
    | [] => some (sign * mant)
    | e :: t =>
      if e = 'e' || e = 'E' then
        let (esign, t2) : Bool × List Char :=
          match t with
          | '+' :: u => (false, u)
          | '-' :: u => (true, u)
          | u => (false, u)
        let ed := t2.takeWhile Char.isDigit
        if ed.isEmpty || !(t2.drop ed.length).isEmpty then none
        else
          let scale : Rat := (10 : Rat) ^ digitsToNat ed
          some (sign * mant * (if esign then 1 / scale else scale))
      else none

/-- Follows the spec's words (§4.5): "a string that, after stripping
thousands-separators, parses as a float". -/
def numeric_looking_spec (s : String) : Bool := (pyFloatParse (removeCommas s)).isSome

/-- Python `str.title` (ASCII model): uppercase every letter that follows a
non-letter, lowercase the rest. -/
def titleCaseGo : Bool → List Char → List Char
  | _, [] => []
  | prevAlpha, c :: cs =>
    if c.isAlpha then
      (if prevAlpha then lowerChar c else c.toUpper) :: titleCaseGo true cs
    else c :: titleCaseGo false cs

/-- Python `str.title` (ASCII model). -/
def titleCase (s : String) : String := ⟨titleCaseGo false s.data⟩

/-- `_convert_to_words` (lines 160-186): NaN/None give `""`; otherwise
`str(value)` is comma-stripped and parsed by `float`; `num2words(·,
lang="en_IN")` output has its commas removed and is title-cased.  For `int`
and finite `float` values, `float(str(value))` round-trips to the value
itself, which the model uses directly. -/
def convert_to_words (n2w : Rat → String) : PVal → String
  | .pNone => ""
  | .pFloat nan q => if nan then "" else titleCase (removeCommas (n2w q))
  | .pInt n => titleCase (removeCommas (n2w (n : Rat)))
  | .pStr s =>
    match pyFloatParse (removeCommas s) with
    | some q => titleCase (removeCommas (n2w q))
    | none => ""

/-- `_format_value` (lines 188-208): NaN/None give `""`; a float with zero
fractional part prints as an integer; other floats print as `str(float)`
(the abstract `fr`); everything else through `str`. -/
def format_value (fr : Rat → String) : PVal → String
  | .pNone => ""
  | .pInt n => toString n
  | .pFloat nan q => if nan then "" else if q.den = 1 then toString q.num else fr q
  | .pStr s => s

/-- The `_Words` augmentation loop: for every source column whose value
passes the numeric test, assign `row[f"{col}_Words"]`. -/
def wordsPass (n2w : Rat → String) (orig : PRow) (d : StrRow) : StrRow :=
  orig.foldl (fun acc kv =>
    if code_numeric_test kv.2 then pySet acc (kv.1 ++ "_Words") (convert_to_words n2w kv.2)
    else acc) d

/-- The unmapped branch of `get_data_as_dicts` for one row: format every
column, then run the `_Words` augmentation. -/
def process_row_unmapped (fr n2w : Rat → String) (row : PRow) : StrRow :=
  wordsPass n2w row (row.map (fun kv => (kv.1, format_value fr kv.2)))

/-- The mapped branch of `get_data_as_dicts` for one row: placeholder
entries from the mapping (missing columns become `""`), then the original
columns not already present, then the `_Words` augmentation. -/
def process_row_mapped (fr n2w : Rat → String) (mapping : List (String × String))
    (row : PRow) : StrRow :=
  let m1 := mapping.foldl (fun acc pm =>
    pySet acc pm.1 (if prowHas row pm.2 then format_value fr (prowGet row pm.2) else "")) []
  let m2 := row.foldl (fun acc kv =>
    if rowHas acc kv.1 then acc else acc ++ [(kv.1, format_value fr kv.2)]) m1
  wordsPass n2w row m2

/-- `get_data_as_dicts` (lines 102-158).  An empty `mapping` models Python's
falsy `column_mapping` (both `None` and `{}` take the unmapped branch). -/
def get_data_as_dicts (fr n2w : Rat → String) (mapping : List (String × String))
    (rows : List PRow) : List StrRow :=
  if mapping.isEmpty then rows.map (process_row_unmapped fr n2w)
  else rows.map (process_row_mapped fr n2w mapping)

/-! ## Batch Dispatcher — `src/utils/email_handler.py`, `send_batch_emails`
(lines 190-263)

The SMTP transport is abstracted by two oracles: `connectErr` is the
outcome of the initial `SMTP(...)`/`starttls`/`login` (`none` = connected),
and `sendErr i` is the outcome of `create_message` + `server.send_message`
for the `i`-th job (`none` = delivered, `some e` = the exception text).
The progress callback and `time.sleep` are recorded as events; they are
assumed not to raise (the model's per-job `try` covers exactly what the
source's does). -/

/-- One prepared send job (`email_data_list[i]`).  Fields the dispatcher
logic never branches on (subject, body, attachments, CC/BCC) are carried
opaquely by the send oracle and omitted here. -/
structure Job where
  to_email : String
  row_index : Option Nat
deriving DecidableEq, Repr

/-- One entry of `failed_details`; the synthetic global entry uses
`row_index = -1`. -/
structure FailDetail where
  row_index : Int
  email : String
  error : String
deriving DecidableEq, Repr

/-- The `results` dictionary of `send_batch_emails`. -/
structure BatchResult where
  total : Nat
  sent : Nat
  failed : Nat
  skipped : Nat
  failed_details : List FailDetail
deriving DecidableEq, Repr

/-- Observable events of a batch run, in order: a progress-callback
invocation, a successful transmission, an inter-job delay. -/
inductive Ev where
  | progress (cur total : Nat) (msg : String)
  | sent (idx : Nat)
  | slept
deriving DecidableEq, Repr

/-- The `for idx, email_data in enumerate(email_data_list)` loop: progress
callback first, then the guarded create/send, then the inter-job delay for
every index but the last. -/
def send_batch_loop (sendErr : Nat → Option String) (total : Nat) :
    List Job → Nat → BatchResult → List Ev → BatchResult × List Ev
  | [], _, acc, evs => (acc, evs)
  | j :: rest, idx, acc, evs =>
    let evs := evs ++ [Ev.progress (idx + 1) total ("Sending to " ++ j.to_email ++ "...")]
    let (acc, evs) :=
      match sendErr idx with
      | none => ({ acc with sent := acc.sent + 1 }, evs ++ [Ev.sent idx])
      | some err =>
        ({ acc with
            failed := acc.failed + 1
            failed_details := acc.failed_details
              ++ [⟨((j.row_index.getD idx : Nat) : Int), j.to_email, err⟩] }, evs)
    let evs := if idx < total - 1 then evs ++ [Ev.slept] else evs
    send_batch_loop sendErr total rest (idx + 1) acc evs

/-- `send_batch_emails`: on a connection failure every job is still pending
(`sent == failed == 0`), so `remaining = total` jobs are marked failed
through one synthetic `"Global Batch Error"` entry; otherwise the loop runs
over all jobs on the shared connection. -/
def send_batch_emails (jobs : List Job) (connectErr : Option String)
    (sendErr : Nat → Option String) : BatchResult × List Ev :=
  let init : BatchResult := ⟨jobs.length, 0, 0, 0, []⟩
  match connectErr with
  | some e =>
    ({ init with
        failed := jobs.length
        failed_details := [⟨-1, "Global Batch Error", "Connection failed: " ++ e⟩] }, [])
  | none => send_batch_loop sendErr jobs.length jobs 0 init []

/-- Is an event a progress-callback invocation? -/
def Ev.isProgress : Ev → Bool
  | .progress _ _ _ => true
  | _ => false

/-- Straight-line count of delivered jobs of a window starting at index `i`. -/
def cntSent (sendErr : Nat → Option String) : Nat → List Job → Nat
  | _, [] => 0
  | i, _ :: rest => (if (sendErr i).isNone then 1 else 0) + cntSent sendErr (i + 1) rest

/-- Straight-line count of failed jobs of a window starting at index `i`. -/
def cntFail (sendErr : Nat → Option String) : Nat → List Job → Nat
  | _, [] => 0
  | i, _ :: rest => (if (sendErr i).isSome then 1 else 0) + cntFail sendErr (i + 1) rest

/-- Straight-line failure detail list of a window starting at index `i`. -/
def failDetails (sendErr : Nat → Option String) : Nat → List Job → List FailDetail
  | _, [] => []
  | i, j :: rest =>
    (match sendErr i with
     | some e => [⟨((j.row_index.getD i : Nat) : Int), j.to_email, e⟩]
     | none => []) ++ failDetails sendErr (i + 1) rest

/-- Straight-line event trace of a window starting at index `i`: per job, the
progress call, then the transmission when it succeeds, then the rate-limit
sleep for every index but the last. -/
def evsSpec (sendErr : Nat → Option String) (total : Nat) : Nat → List Job → List Ev
  | _, [] => []
  | i, j :: rest =>
    ([Ev.progress (i + 1) total ("Sending to " ++ j.to_email ++ "...")]
      ++ (match sendErr i with | none => [Ev.sent i] | some _ => [])
      ++ (if i < total - 1 then [Ev.slept] else []))
      ++ evsSpec sendErr total (i + 1) rest

/-! ## Key well-formedness predicates

Replacement-map keys produced by the program are `strip()`ped captures of
`[^}]+`, hence non-empty and `}`-free; `{`-freeness additionally rules out
the degenerate templates in which one placeholder's match span swallows
another placeholder's braces. -/

/-- The characters of the reserved literal `{Signature}`. -/
def sigName : List Char := "Signature".data

/-- The reserved literal `{Signature}` as a character list. -/
def sigTok : List Char := '{' :: sigName ++ ['}']

/-- A replacement key that can never rewrite an occurrence of the literal
`{Signature}`: not a case variant of `Signature`, and brace-free. -/
def goodKey (k : String) : Prop :=
  k.data.map lowerChar ≠ sigName.map lowerChar ∧ '{' ∉ k.data ∧ '}' ∉ k.data

/-! ## Character-level lemmas -/

theorem lowerChar_eq_rbrace (c : Char) : lowerChar c = '}' ↔ c = '}' := by
  unfold lowerChar
  split <;> simp_all <;> decide

theorem lowerChar_eq_lbrace (c : Char) : lowerChar c = '{' ↔ c = '{' := by
  unfold lowerChar
  split <;> simp_all <;> decide

theorem isWsChar_lowerChar (c : Char) : isWsChar (lowerChar c) = isWsChar c := by
  unfold lowerChar
  split <;> first | rfl | decide

theorem ws_ne_rbrace {c : Char} (h : isWsChar c = true) : c ≠ '}' := by
  intro h'
  subst h'
  exact absurd h (by decide)

theorem ws_ne_lbrace {c : Char} (h : isWsChar c = true) : c ≠ '{' := by
  intro h'
  subst h'
  exact absurd h (by decide)

/-! ## `containsSub` lemmas -/

theorem containsSub_cons (n : List Char) (c : Char) (t : List Char) :
    containsSub n (c :: t) = (n.isPrefixOf (c :: t) || containsSub n t) := rfl

theorem containsSub_of_isPrefixOf {n s : List Char} (h : n.isPrefixOf s = true) :
    containsSub n s = true := by
  cases s with
  | nil =>
    cases n with
    | nil => rfl
    | cons a t => simp [List.isPrefixOf] at h
  | cons c t => simp [containsSub_cons, h]

theorem containsSub_append_left {n t : List Char} (x : List Char)
    (h : containsSub n t = true) : containsSub n (x ++ t) = true := by
  induction x with
  | nil => simpa using h
  | cons c x' ih => simp [containsSub_cons, ih]

theorem containsSub_append_elim {n' x y : List Char} (hx : '{' ∉ x)
    (h : containsSub ('{' :: n') (x ++ y) = true) : containsSub ('{' :: n') y = true := by
  induction x with
  | nil => simpa using h
  | cons c x' ih =>
    rw [List.cons_append, containsSub_cons] at h
    rcases Bool.or_eq_true _ _ |>.mp h with hpre | hrest
    · have : '{' = c := by simpa [List.isPrefixOf] using And.left (by simpa [List.isPrefixOf] using hpre)
      exact absurd (this ▸ List.mem_cons_self c x') (by simpa [← this] using hx)
    · exact ih (fun hm => hx (List.mem_cons_of_mem _ hm)) hrest

/-- First-`}`-alignment: two decompositions at the first closing brace agree. -/
theorem append_rbrace_inj :
    ∀ (xs ys b r : List Char), '}' ∉ xs → '}' ∉ ys →
      xs ++ '}' :: b = ys ++ '}' :: r → xs = ys ∧ b = r := by
  intro xs
  induction xs with
  | nil =>
    intro ys b r _ hy h
    cases ys with
    | nil =>
      simp only [List.nil_append] at h
      exact ⟨rfl, by injection h⟩
    | cons y ys' =>
      simp only [List.nil_append, List.cons_append] at h
      injection h with h1 h2
      exact absurd (h1 ▸ List.mem_cons_self y ys') (by simpa [← h1] using hy)
  | cons x xs' ih =>
    intro ys b r hx hy h
    cases ys with
    | nil =>
      simp only [List.cons_append, List.nil_append] at h
      injection h with h1 h2
      exact absurd (h1 ▸ List.mem_cons_self x xs') (by simpa [h1] using hx)
    | cons y ys' =>
      simp only [List.cons_append] at h
      injection h with h1 h2
      obtain ⟨e1, e2⟩ := ih ys' b r (fun hm => hx (List.mem_cons_of_mem _ hm))
        (fun hm => hy (List.mem_cons_of_mem _ hm)) h2
      exact ⟨by rw [h1, e1], e2⟩

/-! ## `dropWs` and `matchKeyCI` lemmas -/

theorem dropWs_spec (s : List Char) :
    ∃ w, s = w ++ dropWs s ∧ ∀ c ∈ w, isWsChar c = true := by
  induction s with
  | nil => exact ⟨[], rfl, by simp⟩
  | cons c cs ih =>
    by_cases hc : isWsChar c = true
    · obtain ⟨w, hw, hall⟩ := ih
      refine ⟨c :: w, ?_, ?_⟩
      · simp [dropWs, hc]
        exact hw
      · intro d hd
        rcases List.mem_cons.mp hd with rfl | hd'
        · exact hc
        · exact hall d hd'
    · simp only [Bool.not_eq_true] at hc
      exact ⟨[], by simp [dropWs, hc], by simp⟩

theorem dropWs_cons_not_ws {c : Char} (cs : List Char) (h : isWsChar c = false) :
    dropWs (c :: cs) = c :: cs := by
  simp [dropWs, h]

theorem dropWs_append_ws {w : List Char} (l : List Char)
    (hw : ∀ c ∈ w, isWsChar c = true) : dropWs (w ++ l) = dropWs l := by
  induction w with
  | nil => rfl
  | cons c w' ih =>
    have hc := hw c (List.mem_cons_self c w')
    simp only [List.cons_append, dropWs, hc, if_true]
    exact ih (fun d hd => hw d (List.mem_cons_of_mem _ hd))

theorem matchKeyCI_spec :
    ∀ (key v r : List Char), matchKeyCI key v = some r →
      ∃ K, v = K ++ r ∧ K.map lowerChar = key.map lowerChar := by
  intro key
  induction key with
  | nil =>
    intro v r h
    simp [matchKeyCI] at h
    exact ⟨[], by simp [h], by simp⟩
  | cons k ks ih =>
    intro v r h
    cases v with
    | nil => simp [matchKeyCI] at h
    | cons c cs =>
      simp only [matchKeyCI] at h
      split at h
      · obtain ⟨K, hK, hmap⟩ := ih cs r h
        refine ⟨c :: K, by simp [hK], ?_⟩
        simp [hmap]
        assumption
      · exact absurd h (by simp)

theorem matchKeyCI_complete :
    ∀ (key K rest : List Char), K.map lowerChar = key.map lowerChar →
      matchKeyCI key (K ++ rest) = some rest := by
  intro key
  induction key with
  | nil =>
    intro K rest h
    have : K = [] := by simpa using congrArg List.length h
    simp [this, matchKeyCI]
  | cons k ks ih =>
    intro K rest h
    cases K with
    | nil => simp at h
    | cons c K' =>
      simp only [List.map_cons, List.cons.injEq] at h
      simp [matchKeyCI, h.1, ih K' rest h.2]

/-! ## `tryTok` lemmas -/

theorem tryTok_not_lbrace {c : Char} (key cs : List Char) (h : ¬c = '{') :
    tryTok key (c :: cs) = none := by
  simp [tryTok, h]

theorem tryTok_spec {key s r : List Char} (h : tryTok key s = some r) :
    ∃ w1 K w2, s = '{' :: (w1 ++ (K ++ (w2 ++ '}' :: r)))
      ∧ (∀ c ∈ w1, isWsChar c = true) ∧ (∀ c ∈ w2, isWsChar c = true)
      ∧ K.map lowerChar = key.map lowerChar := by
  cases s with
  | nil => simp [tryTok] at h
  | cons c cs =>
    simp only [tryTok] at h
    split at h
    case isFalse => exact absurd h (by simp)
    case isTrue hc =>
      subst hc
      split at h
      next hm => exact absurd h (by simp)
      next s2 hm =>
        split at h
        next hd => exact absurd h (by simp)
        next d s3 hd =>
          split at h
          case isFalse => exact absurd h (by simp)
          case isTrue hdd =>
            subst hdd
            have hr : s3 = r := by injection h
            subst hr
            obtain ⟨w1, hw1eq, hw1⟩ := dropWs_spec cs
            obtain ⟨K, hKeq, hKmap⟩ := matchKeyCI_spec key (dropWs cs) s2 hm
            obtain ⟨w2, hw2eq, hw2⟩ := dropWs_spec s2
            refine ⟨w1, K, w2, ?_, hw1, hw2, hKmap⟩
            rw [hw1eq, hKeq, hw2eq, hd]

theorem tryTok_length {key s r : List Char} (h : tryTok key s = some r) :
    r.length < s.length := by
  obtain ⟨w1, K, w2, hs, -, -, -⟩ := tryTok_spec h
  subst hs
  simp
  omega

theorem tryTok_complete {key : List Char} (w1 K w2 rest : List Char)
    (hw1 : ∀ c ∈ w1, isWsChar c = true) (hw2 : ∀ c ∈ w2, isWsChar c = true)
    (hK : K.map lowerChar = key.map lowerChar)
    (hhead : ∀ c, key.head? = some c → isWsChar c = false) :
    tryTok key ('{' :: (w1 ++ (K ++ (w2 ++ '}' :: rest)))) = some rest := by
  have hdrop1 : dropWs (w1 ++ (K ++ (w2 ++ '}' :: rest))) = dropWs (K ++ (w2 ++ '}' :: rest)) :=
    dropWs_append_ws _ hw1
  have hdrop3 : dropWs (w2 ++ '}' :: rest) = '}' :: rest := by
    rw [dropWs_append_ws _ hw2]
    exact dropWs_cons_not_ws rest (by decide)
  have hrb : dropWs ('}' :: rest) = '}' :: rest := dropWs_cons_not_ws rest (by decide)
  cases key with
  | nil =>
    have hKnil : K = [] := by simpa using congrArg List.length hK
    subst hKnil
    simp [tryTok, matchKeyCI, dropWs_append_ws _ hw1, dropWs_append_ws _ hw2, hrb]
  | cons k ks =>
    cases K with
    | nil => simp at hK
    | cons c K' =>
      have hck : lowerChar c = lowerChar k := by
        simpa using congrArg List.head? hK
      have hkws : isWsChar k = false := hhead k rfl
      have hcws : isWsChar c = false := by
        rw [← isWsChar_lowerChar c, hck, isWsChar_lowerChar k]
        exact hkws
      have hdrop2 : dropWs (c :: (K' ++ (w2 ++ '}' :: rest))) = c :: (K' ++ (w2 ++ '}' :: rest)) :=
        dropWs_cons_not_ws _ hcws
      have hmatch : matchKeyCI (k :: ks) ((c :: K') ++ (w2 ++ '}' :: rest)) =
          some (w2 ++ '}' :: rest) := matchKeyCI_complete (k :: ks) (c :: K') _ hK
      simp only [List.cons_append] at hmatch
      simp [tryTok, dropWs_append_ws _ hw1, hdrop2, hmatch, hdrop3]

/-! ## `replTok` lemmas -/

theorem replTokF_nil (key val : List Char) (f : Nat) : replTokF key val f [] = [] := by
  cases f <;> rfl

theorem replTokF_fuel (key val : List Char) :
    ∀ f1 f2 s, s.length ≤ f1 → s.length ≤ f2 →
      replTokF key val f1 s = replTokF key val f2 s := by
  intro f1
  induction f1 with
  | zero =>
    intro f2 s hs1 _
    have : s = [] := List.length_eq_zero.mp (Nat.le_zero.mp hs1)
    subst this
    rw [replTokF_nil, replTokF_nil]
  | succ g1 ih =>
    intro f2 s hs1 hs2
    cases s with
    | nil => rw [replTokF_nil, replTokF_nil]
    | cons c cs =>
      cases f2 with
      | zero => simp at hs2
      | succ g2 =>
        simp only [List.length_cons] at hs1 hs2
        cases htry : tryTok key (c :: cs) with
        | some rest =>
          have hlen : rest.length < cs.length + 1 := by
            simpa using tryTok_length htry
          simp only [replTokF, htry]
          rw [ih g2 rest (by omega) (by omega)]
        | none =>
          simp only [replTokF, htry]
          rw [ih g2 cs (by omega) (by omega)]

theorem replTok_nil (key val : List Char) : replTok key val [] = [] := rfl

theorem replTok_cons (key val : List Char) (c : Char) (cs : List Char) :
    replTok key val (c :: cs) =
      (match tryTok key (c :: cs) with
       | some rest => val ++ replTok key val rest
       | none => c :: replTok key val cs) := by
  show replTokF key val (cs.length + 1) (c :: cs) = _
  cases htry : tryTok key (c :: cs) with
  | some rest =>
    have hlen : rest.length < cs.length + 1 := by simpa using tryTok_length htry
    simp only [replTokF, htry]
    rw [replTokF_fuel key val cs.length rest.length rest (by omega) (by omega)]
    rfl
  | none =>
    simp only [replTokF, htry]
    rfl

theorem replTok_append_no_lbrace (key val : List Char) {x : List Char} (t : List Char)
    (hx : '{' ∉ x) : replTok key val (x ++ t) = x ++ replTok key val t := by
  induction x with
  | nil => rfl
  | cons c x' ih =>
    have hc : ¬c = '{' := fun h => hx (h ▸ List.mem_cons_self c x')
    rw [List.cons_append, replTok_cons, tryTok_not_lbrace key _ hc]
    rw [ih (fun hm => hx (List.mem_cons_of_mem _ hm))]
    rfl

theorem not_rbrace_of_map_lower {K key : List Char}
    (hmap : K.map lowerChar = key.map lowerChar) (h : '}' ∉ key) : '}' ∉ K := by
  intro hc
  have h1 : lowerChar '}' ∈ K.map lowerChar := List.mem_map_of_mem lowerChar hc
  rw [hmap] at h1
  obtain ⟨k, hk, hkeq⟩ := List.mem_map.mp h1
  have : lowerChar k = '}' := by rw [hkeq]; decide
  exact h ((lowerChar_eq_rbrace k).mp this ▸ hk)

theorem not_lbrace_of_map_lower {K key : List Char}
    (hmap : K.map lowerChar = key.map lowerChar) (h : '{' ∉ key) : '{' ∉ K := by
  intro hc
  have h1 : lowerChar '{' ∈ K.map lowerChar := List.mem_map_of_mem lowerChar hc
  rw [hmap] at h1
  obtain ⟨k, hk, hkeq⟩ := List.mem_map.mp h1
  have : lowerChar k = '{' := by rw [hkeq]; decide
  exact h ((lowerChar_eq_lbrace k).mp this ▸ hk)

/-! ## Survival of the reserved literal

If a replacement key is neither a case variant of `Signature` nor contains
a brace, one `re.sub` pass for that key can never destroy an occurrence of
the literal `{Signature}`: a match span holds no `}` before its final
character and no `{` after its first, so it cannot overlap the literal
except by being exactly a case-variant token of it. -/

theorem replTok_preserves_sig (key val : List Char)
    (h1 : key.map lowerChar ≠ sigName.map lowerChar)
    (h2 : '{' ∉ key) (h3 : '}' ∉ key) :
    ∀ n s, s.length ≤ n → containsSub sigTok s = true →
      containsSub sigTok (replTok key val s) = true := by
  intro n
  induction n with
  | zero =>
    intro s hs hc
    have : s = [] := List.length_eq_zero.mp (Nat.le_zero.mp hs)
    subst this
    simp [containsSub, sigTok] at hc
  | succ n ih =>
    intro s hs hc
    cases s with
    | nil => simp [containsSub, sigTok] at hc
    | cons c cs =>
      rw [replTok_cons]
      cases htry : tryTok key (c :: cs) with
      | none =>
        rw [containsSub_cons] at hc
        rcases (Bool.or_eq_true _ _).mp hc with hpre | hrest
        · obtain ⟨t, ht⟩ := List.isPrefixOf_iff_prefix.mp hpre
          have ht2 : c :: cs = '{' :: ((sigName ++ ['}']) ++ t) := by
            rw [← ht]
            simp [sigTok]
          rw [List.cons.injEq] at ht2
          obtain ⟨hcc, hcs⟩ := ht2
          subst hcc
          rw [hcs, replTok_append_no_lbrace key val t (by decide)]
          apply containsSub_of_isPrefixOf
          apply List.isPrefixOf_iff_prefix.mpr
          exact ⟨replTok key val t, by simp [sigTok]⟩
        · have hlen : cs.length ≤ n := by simpa using hs
          have := ih cs hlen hrest
          rw [containsSub_cons]
          simp [this]
      | some rest =>
        obtain ⟨w1, K, w2, hseq, hw1, hw2, hK⟩ := tryTok_spec htry
        rw [List.cons.injEq] at hseq
        obtain ⟨hcc, hcs⟩ := hseq
        have hKrb : '}' ∉ K := not_rbrace_of_map_lower hK h3
        have hKlb : '{' ∉ K := not_lbrace_of_map_lower hK h2
        have hIlb : '{' ∉ w1 ++ (K ++ w2) := by
          intro hm
          rcases List.mem_append.mp hm with hm1 | hm'
          · exact ws_ne_lbrace (hw1 _ hm1) rfl
          · rcases List.mem_append.mp hm' with hm2 | hm3
            · exact hKlb hm2
            · exact ws_ne_lbrace (hw2 _ hm3) rfl
        have hIrb : '}' ∉ w1 ++ (K ++ w2) := by
          intro hm
          rcases List.mem_append.mp hm with hm1 | hm'
          · exact ws_ne_rbrace (hw1 _ hm1) rfl
          · rcases List.mem_append.mp hm' with hm2 | hm3
            · exact hKrb hm2
            · exact ws_ne_rbrace (hw2 _ hm3) rfl
        rw [containsSub_cons] at hc
        rcases (Bool.or_eq_true _ _).mp hc with hpre | hrest
        · -- the literal would have to start at the span's opening brace:
          -- the span is then exactly a case-variant token of `Signature`.
          exfalso
          obtain ⟨t, ht⟩ := List.isPrefixOf_iff_prefix.mp hpre
          have hsig : sigTok ++ t = '{' :: (sigName ++ '}' :: t) := by simp [sigTok]
          rw [hsig, hcc, hcs] at ht
          have htail : sigName ++ '}' :: t = (w1 ++ (K ++ w2)) ++ '}' :: rest := by
            injection ht with _ hb
            rw [hb]
            simp
          obtain ⟨heq, -⟩ := append_rbrace_inj sigName (w1 ++ (K ++ w2)) t rest
            (by decide) hIrb htail
          -- `sigName` has no whitespace characters, so `w1 = w2 = []`
          cases w1 with
          | cons a w1' =>
            have hhd : sigName.head? = some a := by rw [heq]; simp
            have ha : a = 'S' := by
              have : sigName.head? = some 'S' := by decide
              rw [this] at hhd
              injection hhd with h'
              exact h'.symm
            have := hw1 a (List.mem_cons_self a w1')
            rw [ha] at this
            exact absurd this (by decide)
          | nil =>
            simp only [List.nil_append] at heq
            cases w2 with
            | cons b w2' =>
              have hb : b ∈ sigName := by
                rw [heq]
                exact List.mem_append.mpr (Or.inr (List.mem_cons_self b w2'))
              have hnws : ∀ c ∈ sigName, isWsChar c = false := by decide
              have := hw2 b (List.mem_cons_self b w2')
              rw [hnws b hb] at this
              exact absurd this (by simp)
            | nil =>
              simp only [List.append_nil] at heq
              exact h1 (by rw [heq]; exact hK.symm)
        · -- the literal lies beyond the span: recurse on the rest.
          rw [hcs] at hrest
          have hx : '{' ∉ (w1 ++ (K ++ w2)) ++ ['}'] := by
            intro hm
            rcases List.mem_append.mp hm with hm1 | hm2
            · exact hIlb hm1
            · simp at hm2
          have hre : containsSub sigTok rest = true := by
            have harr : w1 ++ (K ++ (w2 ++ '}' :: rest)) = ((w1 ++ (K ++ w2)) ++ ['}']) ++ rest := by
              simp
            rw [harr] at hrest
            have hrest2 : containsSub ('{' :: (sigName ++ ['}']))
                (((w1 ++ (K ++ w2)) ++ ['}']) ++ rest) = true := by
              simpa [sigTok] using hrest
            have hres := containsSub_append_elim hx hrest2
            simpa [sigTok] using hres
          have hlen : rest.length ≤ n := by
            have := tryTok_length htry
            simp only [List.length_cons] at this hs
            omega
          exact containsSub_append_left val (ih rest hlen hre)

theorem sigTok_data : sigTok = "{Signature}".data := by decide

theorem applyReplacements_preserves_sig :
    ∀ (repl : List (String × String)), (∀ kv ∈ repl, goodKey kv.1) →
      ∀ s : String, containsSub sigTok s.data = true →
        containsSub sigTok (applyReplacements repl s).data = true := by
  intro repl
  induction repl with
  | nil => intro _ s h; exact h
  | cons kv rest ih =>
    intro hkeys s h
    obtain ⟨g1, g2, g3⟩ := hkeys kv (List.mem_cons_self kv rest)
    have step : containsSub sigTok (replTok kv.1.data kv.2.data s.data) = true :=
      replTok_preserves_sig kv.1.data kv.2.data g1 g2 g3 s.data.length s.data le_rfl h
    exact ih (fun kv' hm => hkeys kv' (List.mem_cons_of_mem _ hm)) ⟨replTok kv.1.data kv.2.data s.data⟩ step

theorem concatRuns_map_empty (l : List String) :
    concatRuns (l.map (fun _ => "")) = "" := by
  induction l with
  | nil => rfl
  | cons s rest ih => simpa [concatRuns] using ih

theorem concatRuns_replicate (n : Nat) : concatRuns (List.replicate n "") = "" := by
  induction n with
  | zero => rfl
  | succ m ih => simpa [concatRuns] using ih

/-- Branch-free statement of `replace_text_in_paragraph`. -/
theorem replace_text_in_paragraph_eq (repl : List (String × String)) (runs : Para) :
    replace_text_in_paragraph repl runs =
      if hasPlaceholderTok (concatRuns runs).data = false then runs
      else if applyReplacements repl (concatRuns runs) = concatRuns runs then runs
      else
        match runs with
        | [] => [applyReplacements repl (concatRuns runs)]
        | _ :: rest => applyReplacements repl (concatRuns runs) :: rest.map (fun _ => "") := by
  unfold replace_text_in_paragraph
  cases h1 : hasPlaceholderTok (concatRuns runs).data
  · simp [h1]
  · by_cases h2 : applyReplacements repl (concatRuns runs) = concatRuns runs
    · simp [h1, h2]
    · simp [h1, h2]

/-- The text of a substituted paragraph: either untouched or the full
substitution of the original text. -/
theorem concatRuns_replace (repl : List (String × String)) (runs : Para) :
    concatRuns (replace_text_in_paragraph repl runs) = concatRuns runs
      ∨ concatRuns (replace_text_in_paragraph repl runs)
          = applyReplacements repl (concatRuns runs) := by
  rw [replace_text_in_paragraph_eq]
  split_ifs with h1 h2
  · exact Or.inl rfl
  · exact Or.inl rfl
  · right
    cases runs with
    | nil => simp [concatRuns]
    | cons r rest => simp [concatRuns, concatRuns_map_empty, concatRuns_replicate]

theorem para_preserves_sig (repl : List (String × String))
    (hkeys : ∀ kv ∈ repl, goodKey kv.1) (runs : Para)
    (h : containsSub sigTok (concatRuns runs).data = true) :
    containsSub sigTok (concatRuns (replace_text_in_paragraph repl runs)).data = true := by
  rcases concatRuns_replace repl runs with heq | heq
  · rw [heq]; exact h
  · rw [heq]
    exact applyReplacements_preserves_sig repl hkeys (concatRuns runs) h

/-! ## A successful match implies a `{...}` token; no token means no change -/

theorem tryTok_some_imp_tok {key : List Char} {c : Char} {cs r : List Char}
    (h : tryTok key (c :: cs) = some r) (hne : key ≠ []) (hrb : '}' ∉ key) :
    hasPlaceholderTok (c :: cs) = true := by
  obtain ⟨w1, K, w2, hseq, hw1, hw2, hK⟩ := tryTok_spec h
  rw [List.cons.injEq] at hseq
  obtain ⟨hcc, hcs⟩ := hseq
  have hKrb : '}' ∉ K := not_rbrace_of_map_lower hK hrb
  have hKne : K ≠ [] := by
    intro hnil
    apply hne
    have := congrArg List.length hK
    simp [hnil] at this
    exact List.length_eq_zero.mp this.symm
  subst hcc
  rw [hcs]
  cases w1 with
  | cons a w1' =>
    have ha : ¬a = '}' := ws_ne_rbrace (hw1 a (List.mem_cons_self a w1'))
    simp only [hasPlaceholderTok, List.cons_append]
    simp [ha, List.elem_iff, List.mem_append]
  | nil =>
    cases K with
    | nil => exact absurd rfl hKne
    | cons k0 K' =>
      have hk0 : ¬k0 = '}' := fun h' => hKrb (h' ▸ List.mem_cons_self k0 K')
      simp only [hasPlaceholderTok, List.nil_append, List.cons_append]
      simp [hk0, List.elem_iff, List.mem_append]

theorem replTok_id_of_no_tok {key : List Char} (val : List Char) :
    ∀ s, hasPlaceholderTok s = false → key ≠ [] → '}' ∉ key →
      replTok key val s = s := by
  intro s
  induction s with
  | nil => intro _ _ _; rfl
  | cons c cs ih =>
    intro hno hne hrb
    rw [replTok_cons]
    cases htry : tryTok key (c :: cs) with
    | some rest =>
      have h1 := tryTok_some_imp_tok htry hne hrb
      rw [hno] at h1
      exact absurd h1 (by decide)
    | none =>
      have hcs : hasPlaceholderTok cs = false := by
        simp only [hasPlaceholderTok, Bool.or_eq_false_iff] at hno
        exact hno.2
      rw [ih hcs hne hrb]

theorem applyReplacements_id_of_no_tok (repl : List (String × String))
    (hkeys : ∀ kv ∈ repl, kv.1 ≠ "" ∧ '}' ∉ kv.1.data) (s : String)
    (hno : hasPlaceholderTok s.data = false) : applyReplacements repl s = s := by
  induction repl with
  | nil => rfl
  | cons kv rest ih =>
    obtain ⟨hne, hrb⟩ := hkeys kv (List.mem_cons_self kv rest)
    have hne' : kv.1.data ≠ [] := fun h => hne (String.ext h)
    have step : (⟨replTok kv.1.data kv.2.data s.data⟩ : String) = s := by
      rw [replTok_id_of_no_tok kv.2.data s.data hno hne' hrb]
    show applyReplacements rest ⟨replTok kv.1.data kv.2.data s.data⟩ = s
    rw [step]
    exact ih (fun kv' hm => hkeys kv' (List.mem_cons_of_mem _ hm))

/-! ## Substitution reaches exactly the document's paragraphs -/

mutual
theorem tblParas_repl (repl : List (String × String)) (t : Tbl) :
    tblParas (replTbl repl t) = (tblParas t).map (replace_text_in_paragraph repl) := by
  cases t with
  | mk rows => exact tblRowsParas_repl repl rows
theorem tblRowsParas_repl (repl : List (String × String)) (rows : List TblRow) :
    tblRowsParas (replTblRows repl rows)
      = (tblRowsParas rows).map (replace_text_in_paragraph repl) := by
  cases rows with
  | nil => rfl
  | cons r rest =>
    simp only [replTblRows, tblRowsParas, List.map_append]
    rw [tblRowParas_repl repl r, tblRowsParas_repl repl rest]
theorem tblRowParas_repl (repl : List (String × String)) (r : TblRow) :
    tblRowParas (replTblRow repl r) = (tblRowParas r).map (replace_text_in_paragraph repl) := by
  cases r with
  | mk cells => exact tblCellsParas_repl repl cells
theorem tblCellsParas_repl (repl : List (String × String)) (cells : List Cell) :
    tblCellsParas (replCells repl cells)
      = (tblCellsParas cells).map (replace_text_in_paragraph repl) := by
  cases cells with
  | nil => rfl
  | cons c rest =>
    simp only [replCells, tblCellsParas, List.map_append]
    rw [tblCellParas_repl repl c, tblCellsParas_repl repl rest]
theorem tblCellParas_repl (repl : List (String × String)) (c : Cell) :
    tblCellParas (replCell repl c) = (tblCellParas c).map (replace_text_in_paragraph repl) := by
  cases c with
  | mk ps ts =>
    simp only [replCell, tblCellParas, List.map_append]
    rw [tblsParas_repl repl ts]
theorem tblsParas_repl (repl : List (String × String)) (ts : List Tbl) :
    tblsParas (replTbls repl ts) = (tblsParas ts).map (replace_text_in_paragraph repl) := by
  cases ts with
  | nil => rfl
  | cons t rest =>
    simp only [replTbls, tblsParas, List.map_append]
    rw [tblParas_repl repl t, tblsParas_repl repl rest]
end

theorem docParas_generate (proc : DocProc) (data : StrRow)
    (preserved : Option (List String)) :
    docParas (generate_document proc data preserved)
      = (docParas proc.template_bytes).map
          (replace_text_in_paragraph
            (buildReplacements proc.placeholders (preserved.getD ["Signature"]) data)) := by
  unfold generate_document docParas
  simp only [List.map_append]
  congr 1
  · congr 1
    exact tblsParas_repl _ _
  · generalize proc.template_bytes.sections = secs
    induction secs with
    | nil => rfl
    | cons sec rest ih =>
      simp only [List.map_cons, sectionsParas, List.map_append]
      rw [tblsParas_repl, tblsParas_repl, ih]

/-- Keys of the replacement map: discovered placeholders not listed as
preserved. -/
theorem buildReplacements_keys :
    ∀ (P preserved : List String) (data : StrRow) (kv : String × String),
      kv ∈ buildReplacements P preserved data → kv.1 ∈ P ∧ kv.1 ∉ preserved := by
  intro P
  induction P with
  | nil => intro _ _ _ h; simp [buildReplacements] at h
  | cons p ps ih =>
    intro preserved data kv h
    simp only [buildReplacements] at h
    split at h
    next hpres =>
      obtain ⟨h1, h2⟩ := ih preserved data kv h
      exact ⟨List.mem_cons_of_mem _ h1, h2⟩
    next hpres =>
      rcases List.mem_cons.mp h with rfl | hrest
      · refine ⟨List.mem_cons_self _ _, ?_⟩
        intro hmem
        exact hpres (List.elem_iff.mpr hmem)
      · obtain ⟨h1, h2⟩ := ih preserved data kv hrest
        exact ⟨List.mem_cons_of_mem _ h1, h2⟩

/-! ## Claim theorems -/

/-- C2, counterexample: the claim's reserved round trip fails as stated.
For a template containing `{Signature}` (and, separately, the non-reserved
case variant `{signature}`) and a row with no key `"Signature"`, the output
no longer contains the literal `{Signature}`: the case-insensitive
substitution for `signature` rewrites the reserved token too. -/
theorem C2_counterexample :
    strContains "Sign here: {Signature}, ref {signature}." "{Signature}" = true
    ∧ rowHas [] "Signature" = false
    ∧ docTexts (generate_document
        (initProcessor ⟨[["Sign here: {Signature}, ref {signature}."]], [], []⟩) [] none)
        = ["Sign here: , ref ."]
    ∧ (∀ t ∈ docTexts (generate_document
        (initProcessor ⟨[["Sign here: {Signature}, ref {signature}."]], [], []⟩) [] none),
        strContains t "{Signature}" = false) := by decide

/-- C2, amended: `generate_document` with the default reserved list
`["Signature"]` excludes a placeholder from the replacement map exactly
when its name is `"Signature"` by case-sensitive comparison; and the
round trip holds provided every *other* discovered placeholder is neither
a case variant of `Signature` nor contains a brace: then an output
paragraph still carries the literal `{Signature}`. -/
theorem C2_amended :
    (∀ (P : List String) (data : StrRow) (kv : String × String),
        kv ∈ buildReplacements P ["Signature"] data → kv.1 ≠ "Signature")
    ∧ ∀ (template : DocModel) (data : StrRow),
        (∀ p ∈ (initProcessor template).placeholders, p ≠ "Signature" → goodKey p) →
        (∃ t ∈ docTexts template, strContains t "{Signature}" = true) →
        ∃ t ∈ docTexts (generate_document (initProcessor template) data none),
          strContains t "{Signature}" = true := by
  constructor
  · intro P data kv hkv
    obtain ⟨-, hnp⟩ := buildReplacements_keys P ["Signature"] data kv hkv
    intro heq
    exact hnp (by simp [heq])
  · intro template data hgood hin
    obtain ⟨t, htmem, htc⟩ := hin
    unfold docTexts at htmem
    obtain ⟨runs, hruns, rfl⟩ := List.mem_map.mp htmem
    have hkeys : ∀ kv ∈ buildReplacements (initProcessor template).placeholders
        ["Signature"] data, goodKey kv.1 := by
      intro kv hkv
      obtain ⟨hp, hnp⟩ := buildReplacements_keys _ _ _ kv hkv
      refine hgood kv.1 hp ?_
      intro heq
      exact hnp (by simp [heq])
    have hpres : containsSub sigTok
        (concatRuns (replace_text_in_paragraph
          (buildReplacements (initProcessor template).placeholders ["Signature"] data)
          runs)).data = true := by
      apply para_preserves_sig _ hkeys
      rw [sigTok_data]
      exact htc
    refine ⟨concatRuns (replace_text_in_paragraph
      (buildReplacements (initProcessor template).placeholders ["Signature"] data) runs),
      ?_, ?_⟩
    · unfold docTexts
      rw [docParas_generate]
      simp only [List.map_map]
      exact List.mem_map.mpr ⟨runs, hruns, rfl⟩
    · unfold strContains
      rw [← sigTok_data]
      exact hpres

/-- C2, witness: the amended round trip at a concrete template and row. -/
theorem C2_amended_witness :
    ∃ t ∈ docTexts (generate_document
        (initProcessor ⟨[["Sign: {Signature}"]], [], []⟩) [("Name", "X")] none),
      strContains t "{Signature}" = true := by
  apply C2_amended.2
  · intro p hp hne
    have hpl : (initProcessor ⟨[["Sign: {Signature}"]], [], []⟩).placeholders
        = ["Signature"] := by decide
    rw [hpl] at hp
    simp at hp
    exact absurd hp hne
  · decide

/-- C10: because a placeholder's replacement pattern is case-insensitive
and whitespace-tolerant inside the braces, one substitution pass rewrites
any case or brace-whitespace variant of its token in one sweep; and for a
template containing both `{Signature}` (reserved) and `{signature}` (not
reserved), the reserved literal `{Signature}` is replaced as well. -/
theorem C10_case_variants_rewritten :
    (∀ (key val : String) (w1 K' w2 : List Char),
        (∀ c ∈ w1, isWsChar c = true) → (∀ c ∈ w2, isWsChar c = true) →
        K'.map lowerChar = key.data.map lowerChar →
        (∀ c, key.data.head? = some c → isWsChar c = false) →
        replTok key.data val.data ('{' :: (w1 ++ (K' ++ (w2 ++ ['}'])))) = val.data)
    ∧ docTexts (generate_document (initProcessor
        ⟨[["Sign here: {Signature}, ref {signature}."]], [], []⟩) [] none)
        = ["Sign here: , ref ."]
    ∧ (∀ t ∈ docTexts (generate_document (initProcessor
        ⟨[["Sign here: {Signature}, ref {signature}."]], [], []⟩) [] none),
        strContains t "{Signature}" = false) := by
  refine ⟨?_, by decide, by decide⟩
  intro key val w1 K' w2 hw1 hw2 hK hhead
  have htry : tryTok key.data ('{' :: (w1 ++ (K' ++ (w2 ++ '}' :: [])))) = some [] :=
    tryTok_complete w1 K' w2 [] hw1 hw2 hK hhead
  rw [replTok_cons, htry]
  simp [replTok_nil]

/-- C10, witness: the variant-rewriting conjunct applied to the concrete
case variant `{Signature}` of the key `signature`. -/
theorem C10_witness :
    replTok "signature".data "".data ('{' :: ([] ++ ("Signature".data ++ ([] ++ ['}'])))) = "".data :=
  C10_case_variants_rewritten.1 "signature" "" [] "Signature".data []
    (by decide) (by decide) (by decide) (by decide)

/-- C7, counterexample: a paragraph whose concatenated text contains a
placeholder token (split across two runs) is *not* rewritten when the
substitution leaves the text unchanged — the runs keep their old texts, so
the claim's "all runs except the first are empty" fails. -/
theorem C7_counterexample :
    hasPlaceholderTok (concatRuns ["\x7bSig", "nature\x7d"]).data = true
    ∧ replace_text_in_paragraph [("Name", "Bob")] ["\x7bSig", "nature\x7d"] = ["\x7bSig", "nature\x7d"]
    ∧ ¬(∀ s ∈ (replace_text_in_paragraph [("Name", "Bob")] ["\x7bSig", "nature\x7d"]).drop 1, s = "") := by
  refine ⟨by decide, by decide, ?_⟩
  intro h
  have := h "nature\x7d" (by decide)
  simp at this

/-- C7, amended: whenever substitution changes the paragraph's concatenated
text (keys being well-formed placeholder names: non-empty, `}`-free),
`_replace_text_in_paragraph` operates on the full concatenated text — even
with tokens split across runs — writes the whole substituted text back,
and leaves every run but the first empty. -/
theorem C7_amended (repl : List (String × String)) (runs : Para)
    (hkeys : ∀ kv ∈ repl, kv.1 ≠ "" ∧ '}' ∉ kv.1.data)
    (hchange : applyReplacements repl (concatRuns runs) ≠ concatRuns runs) :
    concatRuns (replace_text_in_paragraph repl runs)
      = applyReplacements repl (concatRuns runs)
    ∧ ∀ s ∈ (replace_text_in_paragraph repl runs).drop 1, s = "" := by
  have htok : hasPlaceholderTok (concatRuns runs).data = true := by
    cases h : hasPlaceholderTok (concatRuns runs).data with
    | false => exact absurd (applyReplacements_id_of_no_tok repl hkeys _ h) hchange
    | true => rfl
  rw [replace_text_in_paragraph_eq]
  rw [htok]
  simp only [Bool.true_eq_false, if_false, hchange, if_false]
  cases runs with
  | nil => exact ⟨by simp [concatRuns], by simp⟩
  | cons r rest =>
    refine ⟨by simp [concatRuns, concatRuns_map_empty, concatRuns_replicate], ?_⟩
    intro s hs
    simp at hs
    obtain ⟨x, -, rfl⟩ := hs
    rfl

/-- C7, witness: the amended statement at a split-token paragraph. -/
theorem C7_amended_witness :
    concatRuns (replace_text_in_paragraph [("Name", "Bob")] ["\x7bNa", "me\x7d!"])
      = applyReplacements [("Name", "Bob")] (concatRuns ["\x7bNa", "me\x7d!"])
    ∧ ∀ s ∈ (replace_text_in_paragraph [("Name", "Bob")] ["\x7bNa", "me\x7d!"]).drop 1, s = "" :=
  C7_amended [("Name", "Bob")] ["\x7bNa", "me\x7d!"] (by decide) (by decide)

/-- C8: `generate_document` reads the processor state and never assigns to
it: the stored template and the parsed placeholder set are returned
unchanged, every call parses a fresh document from the original bytes, and
repeated calls with the same row yield equal output. -/
theorem C8_template_immutable (proc : DocProc) (data : StrRow)
    (preserved : Option (List String)) :
    (generate_document_stateful proc data preserved).1 = proc
    ∧ (generate_document_stateful
        ((generate_document_stateful proc data preserved).1) data preserved).2
      = (generate_document_stateful proc data preserved).2
    ∧ (generate_document_stateful proc data preserved).1.template_bytes
        = proc.template_bytes
    ∧ (generate_document_stateful proc data preserved).1.placeholders
        = proc.placeholders :=
  ⟨rfl, rfl, rfl, rfl⟩

/-! ## C1: auto-mapping -/

theorem app_inner_match_eq_find (p : String) :
    ∀ cols : List String, app_inner_match p cols = cols.find? (app_fused_match p) := by
  intro cols
  induction cols with
  | nil => rfl
  | cons c rest ih =>
    simp only [app_inner_match, app_fused_match, List.find?]
    by_cases h1 : (lowerStr c == lowerStr p) = true
    · simp [h1]
    · simp only [Bool.not_eq_true] at h1
      simp only [h1, Bool.false_or, if_false]
      by_cases h2 : (containsSub (lowerStr p).data (lowerStr c).data
          || containsSub (lowerStr c).data (lowerStr p).data) = true
      · simp [h2]
      · simp only [Bool.not_eq_true] at h2
        simp [h2, ih]

/-- C1, counterexample: with columns `["FullName", "name"]` the app's
auto-mapping maps placeholder `"Name"` to `"FullName"` — an earlier
substring match beats the later case-insensitive exact match `"name"`,
while the spec's tiered matching yields `"name"`. -/
theorem C1_counterexample :
    auto_map_app ["Name"] ["FullName", "name"] = [("Name", "FullName")]
    ∧ auto_map_tiered ["Name"] ["FullName", "name"] = [("Name", "name")]
    ∧ auto_map_app ["Name"] ["FullName", "name"]
        ≠ auto_map_tiered ["Name"] ["FullName", "name"] := by decide

/-- C1, amended: the app's auto-mapping first tries a case-sensitive exact
match over the whole column list; failing that it scans the columns once
and takes the *first* column matching case-insensitively exactly *or* as a
case-insensitive substring in either direction (so tiers (b) and (c) are
fused per column, not sequenced over all columns); placeholders with no
match are omitted.  The spec's example still holds: `"Name"` with columns
`["name", "FullName"]` maps to `"name"`. -/
theorem C1_amended :
    (∀ (ps cols : List String),
        auto_map_app ps cols = ps.filterMap (fun p =>
          (if cols.contains p then some p
           else cols.find? (app_fused_match p)).map (fun c => (p, c))))
    ∧ auto_map_app ["Name"] ["name", "FullName"] = [("Name", "name")] := by
  constructor
  · intro ps cols
    induction ps with
    | nil => rfl
    | cons p ps' ih =>
      simp only [auto_map_app, List.filterMap_cons]
      by_cases h1 : p ∈ cols
      · simp [h1, ih]
      · cases hf : cols.find? (app_fused_match p) with
        | none => simp [h1, app_inner_match_eq_find, hf, ih]
        | some c => simp [h1, app_inner_match_eq_find, hf, ih]
  · decide

/-! ## C9: filename derivation -/

theorem sanitizeChar_digitChar (m : Nat) (h : m < 10) :
    sanitizeChar (digitChar m) = digitChar m := by
  interval_cases m <;> decide

theorem natDigitsF_sanitize :
    ∀ (f n : Nat), ∀ c ∈ natDigitsF f n, sanitizeChar c = c := by
  intro f
  induction f with
  | zero => intro n c hc; simp [natDigitsF] at hc
  | succ g ih =>
    intro n c hc
    simp only [natDigitsF] at hc
    split at hc
    next h =>
      simp at hc
      rw [hc]
      exact sanitizeChar_digitChar n h
    next h =>
      rcases List.mem_append.mp hc with hm | hm
      · exact ih (n / 10) c hm
      · simp at hm
        rw [hm]
        exact sanitizeChar_digitChar (n % 10) (Nat.mod_lt n (by omega))

theorem map_sanitize_id {l : List Char} (h : ∀ c ∈ l, sanitizeChar c = c) :
    l.map sanitizeChar = l := by
  induction l with
  | nil => rfl
  | cons c rest ih =>
    rw [List.map_cons, h c (List.mem_cons_self c rest),
      ih (fun d hd => h d (List.mem_cons_of_mem _ hd))]

theorem sanitize_autoName (idx : Nat) :
    sanitize_filename (("document_" ++ pad4 (idx + 1)) ++ ".docx") = autoName idx := by
  unfold sanitize_filename autoName
  apply String.ext
  show (("document_" ++ pad4 (idx + 1)) ++ ".docx").data.map sanitizeChar = _
  rw [map_sanitize_id]
  intro c hc
  simp only [String.data_append] at hc
  have hdoc : ∀ x ∈ "document_".data, sanitizeChar x = x := by decide
  have hext : ∀ x ∈ ".docx".data, sanitizeChar x = x := by decide
  rcases List.mem_append.mp hc with hm | hm
  · rcases List.mem_append.mp hm with hm1 | hm2
    · exact hdoc c hm1
    · unfold pad4 at hm2
      simp only at hm2
      rcases List.mem_append.mp hm2 with hr | hd
      · have : c = '0' := List.eq_of_mem_replicate hr
        rw [this]
        decide
      · exact natDigitsF_sanitize _ _ c hd
  · exact hext c hm

/-- C9: for every filename strategy and row, the final filename equals the
strategy's raw concatenation with `.docx` appended and the
`[<>:"/\|?*] → _` sanitizer applied afterwards; in particular the pattern
value `Acme/Corp:Invoice` yields `Acme_Corp_Invoice.docx` with the
extension untouched. -/
theorem C9_filename_sanitizer :
    (∀ (mode : String) (pat : List PatternItem) (fcol : String) (row : StrRow) (idx : Nat),
        derive_filename mode pat fcol row idx
          = sanitize_filename (raw_filename mode pat fcol row idx ++ ".docx"))
    ∧ derive_filename "pattern" [.column "V"] "" [("V", "Acme/Corp:Invoice")] 0
        = "Acme_Corp_Invoice.docx" := by
  constructor
  · intro mode pat fcol row idx
    unfold derive_filename raw_filename
    split_ifs with h1 h2 h3
    · rfl
    · rfl
    · exact (sanitize_autoName idx).symm
    · exact (sanitize_autoName idx).symm
  · decide

/-! ## Batch dispatcher characterisation -/

theorem send_batch_loop_spec (sendErr : Nat → Option String) (total : Nat) :
    ∀ (jobs : List Job) (idx : Nat) (acc : BatchResult) (evs : List Ev),
      send_batch_loop sendErr total jobs idx acc evs
        = ({ acc with
              sent := acc.sent + cntSent sendErr idx jobs
              failed := acc.failed + cntFail sendErr idx jobs
              failed_details := acc.failed_details ++ failDetails sendErr idx jobs },
           evs ++ evsSpec sendErr total idx jobs) := by
  intro jobs
  induction jobs with
  | nil =>
    intro idx acc evs
    simp [send_batch_loop, cntSent, cntFail, failDetails, evsSpec]
  | cons j rest ih =>
    intro idx acc evs
    simp only [send_batch_loop, cntSent, cntFail, failDetails, evsSpec]
    cases hse : sendErr idx with
    | none =>
      simp only [hse, Option.isNone_none, if_pos, Option.isSome_none,
        Bool.false_eq_true, if_false, if_true]
      rw [ih]
      by_cases hlt : idx < total - 1
      · simp [hlt, Nat.add_assoc, List.append_assoc]
      · simp [hlt, Nat.add_assoc, List.append_assoc]
    | some e =>
      simp only [hse, Option.isNone_some, Bool.false_eq_true, if_false,
        Option.isSome_some, if_true]
      rw [ih]
      by_cases hlt : idx < total - 1
      · simp [hlt, Nat.add_assoc, List.append_assoc]
      · simp [hlt, Nat.add_assoc, List.append_assoc]

theorem cnt_window_none (sendErr : Nat → Option String) :
    ∀ (jobs : List Job) (i : Nat),
      (∀ j, i ≤ j → j < i + jobs.length → sendErr j = none) →
      cntSent sendErr i jobs = jobs.length
        ∧ cntFail sendErr i jobs = 0
        ∧ failDetails sendErr i jobs = [] := by
  intro jobs
  induction jobs with
  | nil => intro i _; simp [cntSent, cntFail, failDetails]
  | cons j rest ih =>
    intro i hall
    have hi : sendErr i = none := hall i le_rfl (by simp)
    obtain ⟨h1, h2, h3⟩ := ih (i + 1) (by
      intro j hj1 hj2
      exact hall j (by omega) (by simp at hj2 ⊢; omega))
    refine ⟨?_, ?_, ?_⟩
    · simp only [cntSent, hi, Option.isNone_none, if_true, h1, List.length_cons]
      omega
    · simp [cntFail, hi, h2]
    · simp [failDetails, hi, h3]

theorem cnt_window_one_fail (sendErr : Nat → Option String) :
    ∀ (jobs : List Job) (i t : Nat) (err : String),
      i ≤ t → t < i + jobs.length →
      sendErr t = some err →
      (∀ j, i ≤ j → j < i + jobs.length → j ≠ t → sendErr j = none) →
      cntSent sendErr i jobs = jobs.length - 1
        ∧ cntFail sendErr i jobs = 1
        ∧ ∃ j0, jobs[t - i]? = some j0
            ∧ failDetails sendErr i jobs
              = [⟨((j0.row_index.getD t : Nat) : Int), j0.to_email, err⟩] := by
  intro jobs
  induction jobs with
  | nil => intro i t err h1 h2 _ _; simp at h2; omega
  | cons j rest ih =>
    intro i t err hit hlt hfail hok
    by_cases hti : t = i
    · subst hti
      obtain ⟨c1, c2, c3⟩ := cnt_window_none sendErr rest (t + 1) (by
        intro j' hj1 hj2
        exact hok j' (by omega) (by simp; omega) (by omega))
      refine ⟨?_, ?_, j, ?_, ?_⟩
      · simp [cntSent, hfail, c1]
      · simp [cntFail, hfail, c2]
      · simp
      · simp [failDetails, hfail, c3]
    · have hit' : i + 1 ≤ t := by omega
      have hi : sendErr i = none := hok i le_rfl (by simp) (fun h => hti h.symm)
      obtain ⟨c1, c2, ⟨j0, hj0, c3⟩⟩ := ih (i + 1) t err hit' (by simp at hlt ⊢; omega) hfail (by
        intro j' hj1 hj2 hj3
        exact hok j' (by omega) (by simp at hj2 ⊢; omega) hj3)
      have hrest_ne : rest.length ≠ 0 := by
        intro h0
        simp at hlt
        omega
      refine ⟨?_, ?_, j0, ?_, ?_⟩
      · simp only [cntSent, hi, Option.isNone_none, if_true, List.length_cons, c1]
        omega
      · simp [cntFail, hi, c2]
      · have : t - i = (t - (i + 1)) + 1 := by omega
        rw [this]
        simpa using hj0
      · simp [failDetails, hi, c3]

theorem evsSpec_sent_mem (sendErr : Nat → Option String) (total : Nat) :
    ∀ (jobs : List Job) (i t : Nat), i ≤ t → t < i + jobs.length →
      sendErr t = none → Ev.sent t ∈ evsSpec sendErr total i jobs := by
  intro jobs
  induction jobs with
  | nil => intro i t h1 h2 _; simp at h2; omega
  | cons j rest ih =>
    intro i t hit hlt hok
    by_cases hti : t = i
    · subst hti
      simp [evsSpec, hok]
    · have := ih (i + 1) t (by omega) (by simp at hlt ⊢; omega) hok
      simp only [evsSpec]
      simp [this]

/-- C4: if the connection holds and exactly one of the `n` jobs (the `k`-th,
1-based) raises during message creation or transmission, the batch reports
`sent = n - 1`, `failed = 1`, and exactly one failure detail carrying that
job's row index, recipient and error text; every other job, the later ones
included, is still transmitted. -/
theorem C4_single_failure (jobs : List Job) (k : Nat) (err : String)
    (sendErr : Nat → Option String)
    (hk1 : 1 ≤ k) (hk2 : k ≤ jobs.length)
    (hfail : sendErr (k - 1) = some err)
    (hok : ∀ j, j < jobs.length → j ≠ k - 1 → sendErr j = none) :
    (send_batch_emails jobs none sendErr).1.sent = jobs.length - 1
    ∧ (send_batch_emails jobs none sendErr).1.failed = 1
    ∧ (∃ j0, jobs[k - 1]? = some j0
        ∧ (send_batch_emails jobs none sendErr).1.failed_details
          = [⟨((j0.row_index.getD (k - 1) : Nat) : Int), j0.to_email, err⟩])
    ∧ ∀ j, j < jobs.length → j ≠ k - 1 →
        Ev.sent j ∈ (send_batch_emails jobs none sendErr).2 := by
  have hloop : send_batch_emails jobs none sendErr
      = ({ total := jobs.length, sent := 0 + cntSent sendErr 0 jobs,
           failed := 0 + cntFail sendErr 0 jobs, skipped := 0,
           failed_details := [] ++ failDetails sendErr 0 jobs },
         [] ++ evsSpec sendErr jobs.length 0 jobs) := by
    show send_batch_loop sendErr jobs.length jobs 0 ⟨jobs.length, 0, 0, 0, []⟩ [] = _
    rw [send_batch_loop_spec]
  obtain ⟨c1, c2, ⟨j0, hj0, c3⟩⟩ := cnt_window_one_fail sendErr jobs 0 (k - 1) err
    (by omega) (by omega) hfail (by intro j _ hj2 hj3; exact hok j (by omega) hj3)
  refine ⟨?_, ?_, ⟨j0, by simpa using hj0, ?_⟩, ?_⟩
  · rw [hloop]
    simpa using c1
  · rw [hloop]
    simpa using c2
  · rw [hloop]
    simpa using c3
  · intro j hj1 hj2
    rw [hloop]
    simp only [List.nil_append]
    exact evsSpec_sent_mem sendErr jobs.length jobs 0 j (by omega) (by omega)
      (hok j hj1 hj2)

/-- C4, witness: five jobs, number 3 raises. -/
theorem C4_witness :
    (send_batch_emails
        [⟨"a@x.com", none⟩, ⟨"b@x.com", none⟩, ⟨"c@x.com", some 7⟩,
         ⟨"d@x.com", none⟩, ⟨"e@x.com", none⟩] none
        (fun j => if j = 2 then some "boom" else none)).1.sent = 4
    ∧ (send_batch_emails
        [⟨"a@x.com", none⟩, ⟨"b@x.com", none⟩, ⟨"c@x.com", some 7⟩,
         ⟨"d@x.com", none⟩, ⟨"e@x.com", none⟩] none
        (fun j => if j = 2 then some "boom" else none)).1.failed = 1
    ∧ (send_batch_emails
        [⟨"a@x.com", none⟩, ⟨"b@x.com", none⟩, ⟨"c@x.com", some 7⟩,
         ⟨"d@x.com", none⟩, ⟨"e@x.com", none⟩] none
        (fun j => if j = 2 then some "boom" else none)).1.failed_details
        = [⟨(7 : Int), "c@x.com", "boom"⟩]
    ∧ Ev.sent 3 ∈ (send_batch_emails
        [⟨"a@x.com", none⟩, ⟨"b@x.com", none⟩, ⟨"c@x.com", some 7⟩,
         ⟨"d@x.com", none⟩, ⟨"e@x.com", none⟩] none
        (fun j => if j = 2 then some "boom" else none)).2
    ∧ Ev.sent 4 ∈ (send_batch_emails
        [⟨"a@x.com", none⟩, ⟨"b@x.com", none⟩, ⟨"c@x.com", some 7⟩,
         ⟨"d@x.com", none⟩, ⟨"e@x.com", none⟩] none
        (fun j => if j = 2 then some "boom" else none)).2 := by
  obtain ⟨h1, h2, ⟨j0, hj0, h3⟩, h4⟩ := C4_single_failure
    [⟨"a@x.com", none⟩, ⟨"b@x.com", none⟩, ⟨"c@x.com", some 7⟩,
     ⟨"d@x.com", none⟩, ⟨"e@x.com", none⟩] 3 "boom"
    (fun j => if j = 2 then some "boom" else none)
    (by decide) (by decide) (by decide)
    (by intro j _ hj; simp [hj])
  have hj0' : j0 = ⟨"c@x.com", some 7⟩ := by
    have h := hj0
    simp at h
    exact h.symm
  subst hj0'
  exact ⟨h1, h2, by simpa using h3,
    h4 3 (by decide) (by decide), h4 4 (by decide) (by decide)⟩

/-- C5: when the initial connection attempt raises before any job is sent,
the batch reports `sent = 0`, `failed = total`, and the failure list is a
single synthetic global-connection-error entry, not one entry per job. -/
theorem C5_connection_failure (jobs : List Job) (e : String)
    (sendErr : Nat → Option String) (hne : jobs ≠ []) :
    (send_batch_emails jobs (some e) sendErr).1.sent = 0
    ∧ (send_batch_emails jobs (some e) sendErr).1.failed = jobs.length
    ∧ (send_batch_emails jobs (some e) sendErr).1.failed_details
        = [⟨-1, "Global Batch Error", "Connection failed: " ++ e⟩]
    ∧ (send_batch_emails jobs (some e) sendErr).1.failed_details.length = 1 :=
  ⟨rfl, rfl, rfl, rfl⟩

/-- C5, witness: a three-job batch whose connection is refused. -/
theorem C5_witness :
    (send_batch_emails [⟨"a@x.com", none⟩, ⟨"b@x.com", none⟩, ⟨"c@x.com", none⟩]
        (some "refused") (fun _ => none)).1.sent = 0
    ∧ (send_batch_emails [⟨"a@x.com", none⟩, ⟨"b@x.com", none⟩, ⟨"c@x.com", none⟩]
        (some "refused") (fun _ => none)).1.failed
        = [(⟨"a@x.com", none⟩ : Job), ⟨"b@x.com", none⟩, ⟨"c@x.com", none⟩].length
    ∧ (send_batch_emails [⟨"a@x.com", none⟩, ⟨"b@x.com", none⟩, ⟨"c@x.com", none⟩]
        (some "refused") (fun _ => none)).1.failed_details
        = [⟨-1, "Global Batch Error", "Connection failed: " ++ "refused"⟩]
    ∧ (send_batch_emails [⟨"a@x.com", none⟩, ⟨"b@x.com", none⟩, ⟨"c@x.com", none⟩]
        (some "refused") (fun _ => none)).1.failed_details.length = 1 :=
  C5_connection_failure [⟨"a@x.com", none⟩, ⟨"b@x.com", none⟩, ⟨"c@x.com", none⟩]
    "refused" (fun _ => none) (by decide)

theorem evsSpec_filter_progress (sendErr : Nat → Option String) (total : Nat) :
    ∀ (jobs : List Job) (i : Nat),
      (evsSpec sendErr total i jobs).filter Ev.isProgress
        = (List.enumFrom i jobs).map (fun p =>
            Ev.progress (p.1 + 1) total ("Sending to " ++ p.2.to_email ++ "...")) := by
  intro jobs
  induction jobs with
  | nil => intro i; rfl
  | cons j rest ih =>
    intro i
    simp only [evsSpec, List.filter_append, List.enumFrom, List.map_cons]
    rw [ih (i + 1)]
    cases hse : sendErr i with
    | none =>
      by_cases hlt : i < total - 1
      · simp [hlt, Ev.isProgress]
      · simp [hlt, Ev.isProgress]
    | some e =>
      by_cases hlt : i < total - 1
      · simp [hlt, Ev.isProgress]
      · simp [hlt, Ev.isProgress]

theorem evsSpec_progress_before_sent (sendErr : Nat → Option String) (total : Nat) :
    ∀ (jobs : List Job) (i t : Nat) (j0 : Job), i ≤ t →
      jobs[t - i]? = some j0 → sendErr t = none →
      ∃ l1 l2, evsSpec sendErr total i jobs
          = l1 ++ Ev.progress (t + 1) total ("Sending to " ++ j0.to_email ++ "...") :: l2
        ∧ Ev.sent t ∈ l2 := by
  intro jobs
  induction jobs with
  | nil => intro i t j0 _ hj0 _; simp at hj0
  | cons j rest ih =>
    intro i t j0 hit hj0 hok
    by_cases hti : t = i
    · subst hti
      simp only [Nat.sub_self, List.getElem?_cons_zero, Option.some.injEq] at hj0
      subst hj0
      refine ⟨[], (Ev.sent t :: (if t < total - 1 then [Ev.slept] else []))
        ++ evsSpec sendErr total (t + 1) rest, ?_, ?_⟩
      · simp [evsSpec, hok]
      · simp
    · have hit' : i + 1 ≤ t := by omega
      have hshift : rest[t - (i + 1)]? = some j0 := by
        have : t - i = (t - (i + 1)) + 1 := by omega
        rw [this] at hj0
        simpa using hj0
      obtain ⟨l1, l2, heq, hmem⟩ := ih (i + 1) t j0 hit' hshift hok
      refine ⟨([Ev.progress (i + 1) total ("Sending to " ++ j.to_email ++ "...")]
          ++ (match sendErr i with | none => [Ev.sent i] | some _ => [])
          ++ (if i < total - 1 then [Ev.slept] else [])) ++ l1, l2, ?_, hmem⟩
      simp only [evsSpec, heq]
      simp [List.append_assoc]

/-- C6, counterexample: the progress callback runs *before* the job is
transmitted, not after it completes — for a single successful job the
callback invocation is the first event and the transmission the second;
and for a single failing job the callback still reports `(1, 1, ...)`
although no job ever completes. -/
theorem C6_counterexample :
    (send_batch_emails [⟨"a@b.com", none⟩] none (fun _ => none)).2
      = [Ev.progress 1 1 "Sending to a@b.com...", Ev.sent 0]
    ∧ (send_batch_emails [⟨"a@b.com", none⟩] none (fun _ => some "boom")).2
      = [Ev.progress 1 1 "Sending to a@b.com..."]
    ∧ (send_batch_emails [⟨"a@b.com", none⟩] none (fun _ => some "boom")).1.sent = 0 := by
  decide

/-- C6, amended: the progress callback is invoked exactly once per job, in
order, *before* that job's transmission attempt, with arguments
`(idx + 1, total, "Sending to {email}...")` — the first argument is the
job's 1-based position in the batch (jobs started, not completed), the
second the batch size. -/
theorem C6_amended (jobs : List Job) (sendErr : Nat → Option String) :
    ((send_batch_emails jobs none sendErr).2.filter Ev.isProgress)
      = jobs.enum.map (fun p =>
          Ev.progress (p.1 + 1) jobs.length ("Sending to " ++ p.2.to_email ++ "..."))
    ∧ ∀ (t : Nat) (j0 : Job), jobs[t]? = some j0 → sendErr t = none →
        ∃ l1 l2, (send_batch_emails jobs none sendErr).2
            = l1 ++ Ev.progress (t + 1) jobs.length
                ("Sending to " ++ j0.to_email ++ "...") :: l2
          ∧ Ev.sent t ∈ l2 := by
  have hloop : (send_batch_emails jobs none sendErr).2
      = evsSpec sendErr jobs.length 0 jobs := by
    show (send_batch_loop sendErr jobs.length jobs 0 ⟨jobs.length, 0, 0, 0, []⟩ []).2 = _
    rw [send_batch_loop_spec]
    simp
  constructor
  · rw [hloop]
    exact evsSpec_filter_progress sendErr jobs.length jobs 0
  · intro t j0 hj0 hok
    rw [hloop]
    exact evsSpec_progress_before_sent sendErr jobs.length jobs 0 t j0 (by omega)
      (by simpa using hj0) hok

/-- C6, witness: the ordering conjunct at a concrete two-job batch. -/
theorem C6_witness :
    ∃ l1 l2,
      (send_batch_emails [⟨"a@x.com", none⟩, ⟨"b@x.com", none⟩] none (fun _ => none)).2
        = l1 ++ Ev.progress 1 2 ("Sending to " ++ "a@x.com" ++ "...") :: l2
      ∧ Ev.sent 0 ∈ l2 :=
  (C6_amended [⟨"a@x.com", none⟩, ⟨"b@x.com", none⟩] (fun _ => none)).2
    0 ⟨"a@x.com", none⟩ (by decide) rfl

/-! ## C3: the `_Words` augmentation -/

theorem append_words_inj {a b : String} (h : a ++ "_Words" = b ++ "_Words") : a = b := by
  have hd := congrArg String.data h
  simp only [String.data_append] at hd
  exact String.ext (List.append_cancel_right hd)

theorem rowFind_none_of_all_ne {d : StrRow} {k : String}
    (h : ∀ kv ∈ d, kv.1 ≠ k) : rowFind d k = none := by
  unfold rowFind
  rw [List.find?_eq_none.mpr]
  · rfl
  · intro kv hkv
    simpa using h kv hkv

theorem rowHas_false_of_find_none {d : StrRow} {k : String}
    (h : rowFind d k = none) : rowHas d k = false := by
  unfold rowFind at h
  unfold rowHas
  cases hf : d.find? (fun kv => kv.1 == k) with
  | some kv => rw [hf] at h; simp at h
  | none =>
    rw [List.find?_eq_none] at hf
    simp only [List.any_eq_false]
    intro kv hkv
    exact hf kv hkv

theorem find?_none_of_not_has {d : StrRow} {k : String} (h : rowHas d k = false) :
    d.find? (fun kv => kv.1 == k) = none := by
  rw [List.find?_eq_none]
  unfold rowHas at h
  rw [List.any_eq_false] at h
  intro kv hkv
  simpa using h kv hkv

theorem find?_set_map_same (k v : String) :
    ∀ d : StrRow, rowHas d k = true →
      (d.map (fun kv => if kv.1 == k then (k, v) else kv)).find? (fun kv => kv.1 == k)
        = some (k, v) := by
  intro d
  induction d with
  | nil => intro h; simp [rowHas] at h
  | cons kv d' ih =>
    intro hhas
    rw [List.map_cons]
    by_cases hk : kv.1 = k
    · have hhead : (if kv.1 == k then (k, v) else kv) = (k, v) := by simp [hk]
      rw [hhead, List.find?_cons_of_pos _ (by simp)]
    · have hhas' : rowHas d' k = true := by
        unfold rowHas at hhas ⊢
        simpa [hk] using hhas
      have hhead : (if kv.1 == k then (k, v) else kv) = kv := by simp [hk]
      rw [hhead, List.find?_cons_of_neg _ (by simp [hk])]
      exact ih hhas'

theorem find?_set_map_ne (k v k' : String) (h : ¬k' = k) :
    ∀ d : StrRow,
      (d.map (fun kv => if kv.1 == k' then (k', v) else kv)).find? (fun kv => kv.1 == k)
        = d.find? (fun kv => kv.1 == k) := by
  intro d
  induction d with
  | nil => rfl
  | cons kv d' ih =>
    rw [List.map_cons]
    by_cases hk : kv.1 = k'
    · have hhead : (if kv.1 == k' then (k', v) else kv) = (k', v) := by simp [hk]
      rw [hhead, List.find?_cons_of_neg _ (by simp [h]),
        List.find?_cons_of_neg _ (by simp [hk, h])]
      exact ih
    · have hhead : (if kv.1 == k' then (k', v) else kv) = kv := by simp [hk]
      rw [hhead]
      by_cases hm : kv.1 = k
      · rw [List.find?_cons_of_pos _ (by simp [hm]), List.find?_cons_of_pos _ (by simp [hm])]
      · rw [List.find?_cons_of_neg _ (by simp [hm]), List.find?_cons_of_neg _ (by simp [hm])]
        exact ih

theorem rowFind_pySet_same (d : StrRow) (k v : String) :
    rowFind (pySet d k v) k = some v := by
  unfold pySet
  split
  next hhas =>
    unfold rowFind
    rw [find?_set_map_same k v d hhas]
    rfl
  next hhas =>
    unfold rowFind
    rw [List.find?_append, find?_none_of_not_has (by simpa using hhas)]
    simp [List.find?]

theorem rowFind_pySet_ne (d : StrRow) (k v k' : String) (h : ¬k' = k) :
    rowFind (pySet d k' v) k = rowFind d k := by
  unfold pySet
  split
  · unfold rowFind
    rw [find?_set_map_ne k v k' h d]
  · unfold rowFind
    rw [List.find?_append]
    cases hf : d.find? (fun kv => kv.1 == k) with
    | some kv => simp
    | none =>
      have hbe : (k' == k) = false := by simp [h]
      simp [List.find?, hbe]

theorem wordsPass_cons (n2w : Rat → String) (kv : String × PVal) (rest : PRow) (d : StrRow) :
    wordsPass n2w (kv :: rest) d
      = wordsPass n2w rest
          (if code_numeric_test kv.2 then
            pySet d (kv.1 ++ "_Words") (convert_to_words n2w kv.2)
          else d) := rfl

theorem rowFind_wordsPass_nokey (n2w : Rat → String) (key : String) :
    ∀ (orig : PRow) (d : StrRow), (∀ kv ∈ orig, ¬kv.1 ++ "_Words" = key) →
      rowFind (wordsPass n2w orig d) key = rowFind d key := by
  intro orig
  induction orig with
  | nil => intro d _; rfl
  | cons kv rest ih =>
    intro d h
    rw [wordsPass_cons]
    have hne := h kv (List.mem_cons_self kv rest)
    have htail := fun kv' hm => h kv' (List.mem_cons_of_mem _ hm)
    split
    · rw [ih _ htail, rowFind_pySet_ne _ _ _ _ hne]
    · rw [ih _ htail]

theorem rowFind_wordsPass (n2w : Rat → String) (col : String) (v : PVal) :
    ∀ (orig : PRow) (d : StrRow), (col, v) ∈ orig → (orig.map Prod.fst).Nodup →
      rowFind (wordsPass n2w orig d) (col ++ "_Words")
        = if code_numeric_test v then some (convert_to_words n2w v)
          else rowFind d (col ++ "_Words") := by
  intro orig
  induction orig with
  | nil => intro d hmem _; simp at hmem
  | cons kv rest ih =>
    intro d hmem hnod
    rw [wordsPass_cons]
    have hnod' : (rest.map Prod.fst).Nodup := by
      simp only [List.map_cons, List.nodup_cons] at hnod
      exact hnod.2
    have hhead : kv.1 ∉ rest.map Prod.fst := by
      simp only [List.map_cons, List.nodup_cons] at hnod
      exact hnod.1
    by_cases hk : kv.1 = col
    · have hv : kv.2 = v := by
        rcases List.mem_cons.mp hmem with heq | hrest
        · rw [← heq]
        · exfalso
          apply hhead
          rw [hk]
          exact List.mem_map.mpr ⟨(col, v), hrest, rfl⟩
      have hnokey : ∀ kv' ∈ rest, ¬kv'.1 ++ "_Words" = col ++ "_Words" := by
        intro kv' hm heq
        apply hhead
        rw [hk, ← append_words_inj heq]
        exact List.mem_map.mpr ⟨kv', hm, rfl⟩
      rw [rowFind_wordsPass_nokey n2w _ rest _ hnokey]
      cases ht : code_numeric_test kv.2 with
      | false =>
        rw [hv] at ht
        simp only [ht, Bool.false_eq_true, if_false]
      | true =>
        rw [hv] at ht
        simp only [ht, if_true, hk]
        rw [hv, rowFind_pySet_same]
    · have hmem' : (col, v) ∈ rest := by
        rcases List.mem_cons.mp hmem with heq | hrest
        · exact absurd (by rw [← heq] : kv.1 = col) hk
        · exact hrest
      have hstep : rowFind
          (if code_numeric_test kv.2 then
            pySet d (kv.1 ++ "_Words") (convert_to_words n2w kv.2)
          else d) (col ++ "_Words") = rowFind d (col ++ "_Words") := by
        split
        · exact rowFind_pySet_ne _ _ _ _ (fun he => hk (append_words_inj he))
        · rfl
      rw [ih _ hmem' hnod', hstep]

theorem rowFind_m1_none (fr : Rat → String) (row : PRow) (key : String) :
    ∀ (mapping : List (String × String)) (init : StrRow),
      (∀ pm ∈ mapping, ¬pm.1 = key) → rowFind init key = none →
      rowFind (mapping.foldl (fun acc pm =>
          pySet acc pm.1
            (if prowHas row pm.2 then format_value fr (prowGet row pm.2) else "")) init)
        key = none := by
  intro mapping
  induction mapping with
  | nil => intro init _ h0; exact h0
  | cons pm rest ih =>
    intro init h h0
    rw [List.foldl_cons]
    refine ih _ (fun pm' hm => h pm' (List.mem_cons_of_mem _ hm)) ?_
    rw [rowFind_pySet_ne _ _ _ _ (h pm (List.mem_cons_self pm rest))]
    exact h0

theorem rowFind_m2_none (fr : Rat → String) (key : String) :
    ∀ (row : PRow) (m : StrRow), (∀ kv ∈ row, ¬kv.1 = key) → rowFind m key = none →
      rowFind (row.foldl (fun acc kv =>
          if rowHas acc kv.1 then acc else acc ++ [(kv.1, format_value fr kv.2)]) m)
        key = none := by
  intro row
  induction row with
  | nil => intro m _ h0; exact h0
  | cons kv rest ih =>
    intro m h h0
    rw [List.foldl_cons]
    refine ih _ (fun kv' hm => h kv' (List.mem_cons_of_mem _ hm)) ?_
    split
    · exact h0
    · unfold rowFind at h0 ⊢
      have hfind : m.find? (fun p => p.1 == key) = none := by
        cases hf : m.find? (fun p => p.1 == key) with
        | none => rfl
        | some p => rw [hf] at h0; simp at h0
      rw [List.find?_append, hfind]
      have hbe : (kv.1 == key) = false := by
        simp [h kv (List.mem_cons_self kv rest)]
      simp [List.find?, hbe]

/-- C3, counterexample: the string `"-5"` parses as a float after stripping
thousands separators (the spec's notion of numeric-looking), yet
`get_data_as_dicts` produces no `Amount_Words` key for it — the code's
test is `isdigit` on the comma/first-dot-stripped string, which rejects
signs, exponents and surrounding space. -/
theorem C3_counterexample :
    numeric_looking_spec "-5" = true
    ∧ code_numeric_test (.pStr "-5") = false
    ∧ (∀ out ∈ get_data_as_dicts (fun _ => "") (fun _ => "") []
          [[("Amount", .pStr "-5")]],
        rowFind out "Amount_Words" = none ∧ rowHas out "Amount" = true) := by
  decide

/-- C3, amended: a row's `{col}_Words` key is present exactly when the
column's value passes the code's numeric test — `int` or `float` instances
(NaN included, yielding `""`), or strings that are all digits after
removing commas and at most one dot (no signs, exponents or spaces) — and
its value is then the black-box `num2words` output with commas removed and
title-cased; non-passing values leave the key absent.  This holds in both
the mapped and the unmapped branch, provided `{col}_Words` collides with
no source column and no mapping placeholder. -/
theorem C3_amended (fr n2w : Rat → String) (mapping : List (String × String))
    (row : PRow) (col : String) (v : PVal)
    (hmem : (col, v) ∈ row) (hnod : (row.map Prod.fst).Nodup)
    (hcol : ∀ kv ∈ row, ¬kv.1 = col ++ "_Words")
    (hmap : ∀ pm ∈ mapping, ¬pm.1 = col ++ "_Words") :
    ∀ out ∈ get_data_as_dicts fr n2w mapping [row],
      rowFind out (col ++ "_Words")
        = if code_numeric_test v then some (convert_to_words n2w v) else none := by
  intro out hout
  unfold get_data_as_dicts at hout
  split at hout
  · simp only [List.map_cons, List.map_nil, List.mem_singleton] at hout
    subst hout
    unfold process_row_unmapped
    rw [rowFind_wordsPass n2w col v row _ hmem hnod]
    have hnone : rowFind (row.map (fun kv => (kv.1, format_value fr kv.2)))
        (col ++ "_Words") = none := by
      apply rowFind_none_of_all_ne
      intro kv' hkv'
      obtain ⟨kv, hkv, rfl⟩ := List.mem_map.mp hkv'
      exact hcol kv hkv
    rw [hnone]
  · simp only [List.map_cons, List.map_nil, List.mem_singleton] at hout
    subst hout
    unfold process_row_mapped
    rw [rowFind_wordsPass n2w col v row _ hmem hnod]
    have hm1 : rowFind (mapping.foldl (fun acc pm =>
        pySet acc pm.1
          (if prowHas row pm.2 then format_value fr (prowGet row pm.2) else "")) [])
        (col ++ "_Words") = none :=
      rowFind_m1_none fr row _ mapping [] hmap rfl
    have hm2 := rowFind_m2_none fr (col ++ "_Words") row _ hcol hm1
    rw [hm2]

/-- C3, witness: the amended statement at the numeric value `500` in column
`Amount`. -/
theorem C3_amended_witness :
    rowFind ((get_data_as_dicts (fun _ => "") (fun _ => "five hundred") []
        [[("Amount", PVal.pInt 500)]]).headD []) ("Amount" ++ "_Words")
      = if code_numeric_test (PVal.pInt 500) then
          some (convert_to_words (fun _ => "five hundred") (PVal.pInt 500))
        else none :=
  C3_amended (fun _ => "") (fun _ => "five hundred") [] [("Amount", PVal.pInt 500)]
    "Amount" (PVal.pInt 500) (by decide) (by decide) (by decide) (by decide)
    ((get_data_as_dicts (fun _ => "") (fun _ => "five hundred") []
        [[("Amount", PVal.pInt 500)]]).headD []) (by decide)

end PrintAutomation
